import Mathlib

/-
  Verification development for the article download-and-convert pipeline
  (src/download_and_convert.py).  The Python code is embedded shallowly:
  strings are `List Char`, JSON values are the inductive `J`, the stateful
  sync engine passes an explicit filesystem record, and the external
  collaborators (image proxy, html.unescape, json.loads, datetime parsing,
  the clock) are fields of an `Env` record, so every run of the model is a
  pure function of the environment.
-/

set_option linter.unusedVariables false
set_option linter.unreachableTactic false
set_option linter.unusedTactic false

abbrev Str := List Char

def lit (s : String) : Str := s.toList

/-- Python whitespace characters (the set used by `str.strip` and `\s`,
ASCII range). -/
def pyWS (c : Char) : Bool :=
  c = ' ' || c = '\t' || c = '\n' || c = '\r' || c = '\x0b' || c = '\x0c'

/-- Python `s.strip()`: drop whitespace from both ends. -/
def pstrip (s : Str) : Str :=
  ((s.dropWhile pyWS).reverse.dropWhile pyWS).reverse

/-- Python `s.strip(chars)`: drop the given characters from both ends. -/
def stripChars (cset : List Char) (s : Str) : Str :=
  ((s.dropWhile (cset.contains ·)).reverse.dropWhile (cset.contains ·)).reverse

/-- Python `s.split(sep)` for a one-character separator; keeps empty
segments, `"".split` gives `[""]`. -/
def splitOnChar (sep : Char) : Str → List Str
  | [] => [[]]
  | c :: cs =>
    if c = sep then [] :: splitOnChar sep cs
    else
      match splitOnChar sep cs with
      | [] => [[c]]
      | t :: ts => (c :: t) :: ts

/-- Python `sep.join(xs)`. -/
def pjoin (sep : Str) : List Str → Str
  | [] => []
  | [x] => x
  | x :: xs => x ++ sep ++ pjoin sep xs

/-- Python `s.replace(old, new)`.  The script only ever calls `replace`
with a non-empty `old` (URL strings and the literal ID marker), so the
empty-pattern behaviour is irrelevant; for `old = []` this is the
identity. -/
def pyReplace (old new : Str) : Str → Str
  | [] => []
  | c :: cs =>
    if h : old ≠ [] ∧ old.isPrefixOf (c :: cs) then
      new ++ pyReplace old new ((c :: cs).drop old.length)
    else
      c :: pyReplace old new cs
termination_by s => s.length
decreasing_by
  · have hlen : 0 < old.length := List.length_pos.mpr h.1
    simp only [List.length_drop, List.length_cons]
    omega
  · simp only [List.length_cons]
    omega

/-- Substring test (used to state counterexamples about generated
documents). -/
def containsSub : Str → Str → Bool
  | [], n => n.isPrefixOf []
  | c :: cs, n => n.isPrefixOf (c :: cs) || containsSub cs n

def natStr (n : Nat) : Str := (toString n).toList

def intStr (n : Int) : Str := (toString n).toList

/- ===================== JSON values ===================== -/

/-- JSON values, the data the script receives (Python dicts / lists /
strings / numbers / booleans / None).  Numbers are modelled as integers:
the only numeric attributes the renderer touches (`level`, `start`) are
integers in the export format. -/
inductive J where
  | null
  | jbool (b : Bool)
  | jnum (n : Int)
  | jstr (s : Str)
  | jarr (xs : List J)
  | jobj (fs : List (String × J))

/-- Dictionary lookup (Python `d[k]` / `d.get(k)` on a dict literal). -/
def lookupField : List (String × J) → String → Option J
  | [], _ => none
  | (k', v) :: fs, k => if k' = k then some v else lookupField fs k

/-- Python `node.get(k)` when `node` may be any value: only dicts have
fields.  The renderer always guards with `isinstance(node, dict)`. -/
def jget : J → String → Option J
  | .jobj fs, k => lookupField fs k
  | _, _ => none

def jgetD (o : J) (k : String) (d : J) : J := (jget o k).getD d

/-- The value of a `type` field when it is a string; any other (or a
missing) value compares unequal to every node-type literal, exactly as in
the Python `==` dispatch, and the empty string is not a node type. -/
def getType (o : J) : Str :=
  match jget o "type" with
  | some (.jstr s) => s
  | _ => []

/-- Iterating a JSON value: only lists yield elements that can pass the
`isinstance(item, dict)` guards of the renderer loops (iterating a string
or a dict yields strings, which every loop skips).  Iterating a scalar
raises `TypeError` in Python; that branch is tracked by `renderSafe`
below, the total renderer returns the empty contribution there. -/
def iterList : J → List J
  | .jarr xs => xs
  | _ => []

def isObj : J → Bool
  | .jobj _ => true
  | _ => false

/-- Python truthiness of a JSON value. -/
def jTruthy : J → Bool
  | .null => false
  | .jbool b => b
  | .jnum n => n ≠ 0
  | .jstr s => s ≠ []
  | .jarr xs => !xs.isEmpty
  | .jobj fs => !fs.isEmpty

/-- Python `f"{v}"` / `str(v)` on the scalar JSON values (the renderer
only formats scalars here; the container cases are unreachable for
well-formed trees and are given the empty string). -/
def pyFmt : J → Str
  | .jstr s => s
  | .jnum n => intStr n
  | .jbool b => if b then lit "True" else lit "False"
  | .null => lit "None"
  | .jarr _ => []
  | .jobj _ => []

/- size lemmas for the well-founded recursion of the renderer -/

theorem lookupField_sizeOf {fs : List (String × J)} {k : String} {v : J}
    (h : lookupField fs k = some v) : sizeOf v < sizeOf fs := by
  induction fs with
  | nil => simp [lookupField] at h
  | cons p rest ih =>
    obtain ⟨k', v'⟩ := p
    simp only [lookupField] at h
    by_cases hk : k' = k
    · simp [hk] at h
      subst h
      simp
      omega
    · simp [hk] at h
      have := ih h
      simp
      omega

theorem jget_sizeOf {o : J} {k : String} {v : J}
    (h : jget o k = some v) : sizeOf v < sizeOf o := by
  cases o <;> simp [jget] at h
  case jobj fs =>
    have := lookupField_sizeOf h
    simp
    omega

theorem mem_sizeOf_lt {x : J} {xs : List J} (h : x ∈ xs) :
    sizeOf x < sizeOf (J.jarr xs) := by
  have := List.sizeOf_lt_of_mem h
  simp
  omega

theorem mem_iterList_sizeOf {x v : J} (h : x ∈ iterList v) :
    sizeOf x < sizeOf v := by
  cases v <;> simp [iterList] at h
  case jarr xs => exact mem_sizeOf_lt h

theorem mem_content_sizeOf {x v o : J} {k : String}
    (hg : jget o k = some v) (h : x ∈ iterList v) : sizeOf x < sizeOf o :=
  Nat.lt_trans (mem_iterList_sizeOf h) (jget_sizeOf hg)

theorem jget_host_two_le {o : J} {k : String} {v : J}
    (h : jget o k = some v) : 2 ≤ sizeOf o := by
  cases o <;> simp [jget] at h
  case jobj fs =>
    cases fs with
    | nil => simp [lookupField] at h
    | cons p rest => obtain ⟨a, b⟩ := p; simp; omega

theorem iterList_sizeOf {v o : J} {k : String}
    (hg : jget o k = some v) : sizeOf (iterList v) < sizeOf o := by
  have hvo := jget_sizeOf hg
  have h2 := jget_host_two_le hg
  cases v <;> simp [iterList] <;> simp at hvo <;> omega

/- ===================== DocumentRenderer (lines 199-465) ===================== -/

/-- One mark application step of `convert_text_node_to_markdown`
(lines 296-311): non-dict marks are skipped, unknown mark types leave the
text unchanged. -/
def applyMark (t : Str) (m : J) : Str :=
  match m with
  | .jobj _ =>
    let mt := getType m
    if mt = lit "bold" then lit "**" ++ t ++ lit "**"
    else if mt = lit "italic" then lit "*" ++ t ++ lit "*"
    else if mt = lit "code" then lit "`" ++ t ++ lit "`"
    else if mt = lit "link" then
      let href :=
        match jget m "attrs" with
        | some (.jobj afs) =>
          match lookupField afs "href" with
          | some v => pyFmt v
          | none => lit "#"
        | _ => lit "#"
      lit "[" ++ t ++ lit "](" ++ href ++ lit ")"
    else if mt = lit "strike" then lit "~~" ++ t ++ lit "~~"
    else t
  | _ => t

/-- `convert_text_node_to_markdown` (lines 285-312): a non-`text` node
gives the empty string; otherwise the marks are applied to the text in
the listed order. -/
def convert_text_node_to_markdown (n : J) : Str :=
  if getType n = lit "text" then
    let text :=
      match jget n "text" with
      | some v => pyFmt v
      | none => []
    let marks := iterList (jgetD n "marks" (J.jarr []))
    marks.foldl applyMark text
  else []

/-- `convert_paragraph_to_markdown` (lines 271-283): concatenate the text
renders of the dict children. -/
def convert_paragraph_to_markdown (o : J) : Str :=
  match jget o "content" with
  | some cv =>
    ((iterList cv).filterMap fun x =>
      if isObj x then some (convert_text_node_to_markdown x) else none).flatten
  | none => []

/-- `node.get('attrs', {}).get('level', 1)` of `convert_heading_to_markdown`
(line 318). -/
def headingLevel (o : J) : Int :=
  match jget o "attrs" with
  | some (.jobj afs) =>
    match lookupField afs "level" with
    | some (.jnum n) => n
    | _ => 1
  | _ => 1

/-- `convert_heading_to_markdown` (lines 314-328). -/
def convert_heading_to_markdown (o : J) : Str :=
  let level : Int := headingLevel o
  match jget o "content" with
  | some cv =>
    let headingText :=
      ((iterList cv).filterMap fun x =>
        if isObj x then some (convert_text_node_to_markdown x) else none).flatten
    List.replicate level.toNat '#' ++ lit " " ++ headingText
  | none => []

/-- `convert_code_block_to_markdown` (lines 399-413). -/
def convert_code_block_to_markdown (o : J) : Str :=
  match jget o "content" with
  | some cv =>
    let codeText :=
      ((iterList cv).filterMap fun x =>
        if isObj x ∧ getType x = lit "text" then
          some (match jget x "text" with
                | some v => pyFmt v
                | none => [])
        else none).flatten
    let language :=
      match jget o "attrs" with
      | some (.jobj afs) =>
        match lookupField afs "language" with
        | some v => pyFmt v
        | none => []
      | _ => []
    lit "```" ++ language ++ lit "\n" ++ codeText ++ lit "\n```"
  | none => []

/-- `convert_image_to_markdown` (lines 582-589): alt and title are
deliberately omitted. -/
def convert_image_to_markdown (o : J) : Str :=
  let src :=
    match jget o "attrs" with
    | some (.jobj afs) =>
      match lookupField afs "src" with
      | some v => pyFmt v
      | none => []
    | _ => []
  lit "![](" ++ src ++ lit ")"

theorem mem_iterList_jgetD_sizeOf {c r : J} {k : String}
    (h : c ∈ iterList (jgetD r k (J.jarr []))) : sizeOf c < sizeOf r := by
  unfold jgetD at h
  cases hg : jget r k with
  | some w => rw [hg] at h; exact mem_content_sizeOf hg h
  | none => rw [hg] at h; simp [Option.getD, iterList] at h

/-- `node.get('attrs', {}).get('start', 1)` of `convert_ordered_list_to_markdown`
(line 354). -/
def orderedStart (o : J) : Int :=
  match jget o "attrs" with
  | some (.jobj afs) =>
    match lookupField afs "start" with
    | some (.jnum n) => n
    | _ => 1
  | _ => 1

mutual

/-- `convert_to_markdown` (lines 219-234): join the non-blank renders of
the dict children with blank lines. -/
def convert_to_markdown (o : J) : Str :=
  match hg : jget o "content" with
  | some cv =>
    pjoin (lit "\n\n")
      ((iterList cv).attach.filterMap fun x =>
        match x.1 with
        | .jobj _ =>
          let r := convert_node_to_markdown x.1
          if pstrip r = [] then none else some r
        | _ => none)
  | none => []
termination_by (sizeOf o, 0)
decreasing_by
  all_goals try simp_wf
  all_goals
    first
      | exact Prod.Lex.right _ (by omega)
      | exact Prod.Lex.left _ _ (mem_content_sizeOf hg x.2)
      | exact Prod.Lex.left _ _ (iterList_sizeOf hg)
      | exact Prod.Lex.left _ _
          (Nat.lt_trans (mem_iterList_jgetD_sizeOf c.2) (mem_content_sizeOf hg r.2))
      | exact Prod.Lex.left _ _ (by first | (simp <;> omega) | omega | simp)

/-- `convert_node_to_markdown` (lines 236-269): dispatch on the `type`
string; unknown types with a `content` field recurse as generic
containers, all other unknown types render to the empty string. -/
def convert_node_to_markdown (o : J) : Str :=
  let t := getType o
  if t = lit "paragraph" then convert_paragraph_to_markdown o
  else if t = lit "heading" then convert_heading_to_markdown o
  else if t = lit "bulletList" then convert_bullet_list_to_markdown o
  else if t = lit "orderedList" then convert_ordered_list_to_markdown o
  else if t = lit "listItem" then convert_list_item_to_markdown o
  else if t = lit "blockquote" then convert_blockquote_to_markdown o
  else if t = lit "codeBlock" then convert_code_block_to_markdown o
  else if t = lit "table" then convert_table_to_markdown o
  else if t = lit "image" then convert_image_to_markdown o
  else if t = lit "imageResize" then convert_image_to_markdown o
  else if t = lit "horizontalRule" then lit "---"
  else
    match jget o "content" with
    | some _ => convert_to_markdown o
    | none => []
termination_by (sizeOf o, 1)
decreasing_by
  all_goals try simp_wf
  all_goals
    first
      | exact Prod.Lex.right _ (by omega)
      | exact Prod.Lex.left _ _ (mem_content_sizeOf hg x.2)
      | exact Prod.Lex.left _ _ (iterList_sizeOf hg)
      | exact Prod.Lex.left _ _
          (Nat.lt_trans (mem_iterList_jgetD_sizeOf c.2) (mem_content_sizeOf hg r.2))
      | exact Prod.Lex.left _ _ (by first | (simp <;> omega) | omega | simp)

/-- `convert_bullet_list_to_markdown` (lines 330-344). -/
def convert_bullet_list_to_markdown (o : J) : Str :=
  match hg : jget o "content" with
  | some cv =>
    pjoin (lit "\n")
      ((iterList cv).attach.filterMap fun x =>
        match x.1 with
        | .jobj _ =>
          if getType x.1 = lit "listItem" then
            let t := convert_list_item_to_markdown x.1
            if pstrip t = [] then none else some (lit "- " ++ t)
          else none
        | _ => none)
  | none => []
termination_by (sizeOf o, 0)
decreasing_by
  all_goals try simp_wf
  all_goals
    first
      | exact Prod.Lex.right _ (by omega)
      | exact Prod.Lex.left _ _ (mem_content_sizeOf hg x.2)
      | exact Prod.Lex.left _ _ (iterList_sizeOf hg)
      | exact Prod.Lex.left _ _
          (Nat.lt_trans (mem_iterList_jgetD_sizeOf c.2) (mem_content_sizeOf hg r.2))
      | exact Prod.Lex.left _ _ (by first | (simp <;> omega) | omega | simp)

/-- The `enumerate` loop of `convert_ordered_list_to_markdown`
(lines 356-363): the item number is the start value plus the position of
the child in the full `content` list. -/
def orderedItemsLoop (st : Int) (i : Nat) (l : List J) : List Str :=
  match l with
  | [] => []
  | x :: xs =>
    (if isObj x ∧ getType x = lit "listItem" then
       let t := convert_list_item_to_markdown x
       if pstrip t = [] then [] else [intStr (st + i) ++ lit ". " ++ t]
     else []) ++ orderedItemsLoop st (i + 1) xs
termination_by (sizeOf l, 0)
decreasing_by
  all_goals try simp_wf
  all_goals
    first
      | exact Prod.Lex.right _ (by omega)
      | exact Prod.Lex.left _ _ (mem_content_sizeOf hg x.2)
      | exact Prod.Lex.left _ _ (iterList_sizeOf hg)
      | exact Prod.Lex.left _ _
          (Nat.lt_trans (mem_iterList_jgetD_sizeOf c.2) (mem_content_sizeOf hg r.2))
      | exact Prod.Lex.left _ _ (by first | (simp <;> omega) | omega | simp)

/-- `convert_ordered_list_to_markdown` (lines 346-365). -/
def convert_ordered_list_to_markdown (o : J) : Str :=
  match hg : jget o "content" with
  | some cv =>
    pjoin (lit "\n") (orderedItemsLoop (orderedStart o) 0 (iterList cv))
  | none => []
termination_by (sizeOf o, 0)
decreasing_by
  all_goals try simp_wf
  all_goals
    first
      | exact Prod.Lex.right _ (by omega)
      | exact Prod.Lex.left _ _ (mem_content_sizeOf hg x.2)
      | exact Prod.Lex.left _ _ (iterList_sizeOf hg)
      | exact Prod.Lex.left _ _
          (Nat.lt_trans (mem_iterList_jgetD_sizeOf c.2) (mem_content_sizeOf hg r.2))
      | exact Prod.Lex.left _ _ (by first | (simp <;> omega) | omega | simp)

/-- `convert_list_item_to_markdown` (lines 367-382): paragraph children
contribute their inline text, other dict children are rendered
recursively, all contributions (blank ones included) are space-joined. -/
def convert_list_item_to_markdown (o : J) : Str :=
  match hg : jget o "content" with
  | some cv =>
    pjoin (lit " ")
      ((iterList cv).attach.filterMap fun x =>
        match x.1 with
        | .jobj _ =>
          some (if getType x.1 = lit "paragraph" then
                  convert_paragraph_to_markdown x.1
                else convert_node_to_markdown x.1)
        | _ => none)
  | none => []
termination_by (sizeOf o, 0)
decreasing_by
  all_goals try simp_wf
  all_goals
    first
      | exact Prod.Lex.right _ (by omega)
      | exact Prod.Lex.left _ _ (mem_content_sizeOf hg x.2)
      | exact Prod.Lex.left _ _ (iterList_sizeOf hg)
      | exact Prod.Lex.left _ _
          (Nat.lt_trans (mem_iterList_jgetD_sizeOf c.2) (mem_content_sizeOf hg r.2))
      | exact Prod.Lex.left _ _ (by first | (simp <;> omega) | omega | simp)

/-- `convert_blockquote_to_markdown` (lines 384-397): the newline-joined
child renders with a single `> ` prefix. -/
def convert_blockquote_to_markdown (o : J) : Str :=
  match hg : jget o "content" with
  | some cv =>
    lit "> " ++
      pjoin (lit "\n")
        ((iterList cv).attach.filterMap fun x =>
          match x.1 with
          | .jobj _ => some (convert_node_to_markdown x.1)
          | _ => none)
  | none => []
termination_by (sizeOf o, 0)
decreasing_by
  all_goals try simp_wf
  all_goals
    first
      | exact Prod.Lex.right _ (by omega)
      | exact Prod.Lex.left _ _ (mem_content_sizeOf hg x.2)
      | exact Prod.Lex.left _ _ (iterList_sizeOf hg)
      | exact Prod.Lex.left _ _
          (Nat.lt_trans (mem_iterList_jgetD_sizeOf c.2) (mem_content_sizeOf hg r.2))
      | exact Prod.Lex.left _ _ (by first | (simp <;> omega) | omega | simp)

/-- `convert_table_to_markdown` (lines 415-445): pipe rows from the
`tableRow` children, a `---` separator inserted after the first row with
one cell per non-blank pipe segment of that row. -/
def convert_table_to_markdown (o : J) : Str :=
  match hg : jget o "content" with
  | some cv =>
    let rows :=
      (iterList cv).attach.filterMap fun r =>
        match r.1 with
        | .jobj _ =>
          if getType r.1 = lit "tableRow" then
            let cells :=
              (iterList (jgetD r.1 "content" (J.jarr []))).attach.filterMap
                fun c =>
                  match c.1 with
                  | .jobj _ =>
                    if getType c.1 = lit "tableCell" then
                      some (convert_table_cell_to_markdown c.1)
                    else none
                  | _ => none
            if cells = [] then none
            else some (lit "| " ++ pjoin (lit " | ") cells ++ lit " |")
          else none
        | _ => none
    match rows with
    | [] => []
    | first :: rest =>
      let colCount :=
        ((splitOnChar '|' first).filter fun seg => pstrip seg ≠ []).length
      pjoin (lit "\n")
        (first ::
          (lit "| " ++ pjoin (lit " | ") (List.replicate colCount (lit "---"))
            ++ lit " |") :: rest)
  | none => []
termination_by (sizeOf o, 0)
decreasing_by
  all_goals try simp_wf
  all_goals
    first
      | exact Prod.Lex.right _ (by omega)
      | exact Prod.Lex.left _ _ (mem_content_sizeOf hg x.2)
      | exact Prod.Lex.left _ _ (iterList_sizeOf hg)
      | exact Prod.Lex.left _ _
          (Nat.lt_trans (mem_iterList_jgetD_sizeOf c.2) (mem_content_sizeOf hg r.2))
      | exact Prod.Lex.left _ _ (by first | (simp <;> omega) | omega | simp)

/-- `convert_table_cell_to_markdown` (lines 447-465). -/
def convert_table_cell_to_markdown (o : J) : Str :=
  match hg : jget o "content" with
  | some cv =>
    pjoin (lit " ")
      ((iterList cv).attach.filterMap fun x =>
        match x.1 with
        | .jobj _ =>
          some (if getType x.1 = lit "paragraph" then
                  convert_paragraph_to_markdown x.1
                else convert_node_to_markdown x.1)
        | _ => none)
  | none => []
termination_by (sizeOf o, 0)
decreasing_by
  all_goals try simp_wf
  all_goals
    first
      | exact Prod.Lex.right _ (by omega)
      | exact Prod.Lex.left _ _ (mem_content_sizeOf hg x.2)
      | exact Prod.Lex.left _ _ (iterList_sizeOf hg)
      | exact Prod.Lex.left _ _
          (Nat.lt_trans (mem_iterList_jgetD_sizeOf c.2) (mem_content_sizeOf hg r.2))
      | exact Prod.Lex.left _ _ (by first | (simp <;> omega) | omega | simp)

end

/- ============ renderer lemmas and renderer-level claims ============ -/

theorem filterMap_attach_eq {α β : Type} (xs : List α) (g : α → Option β) :
    (xs.attach.filterMap fun x => g x.1) = xs.filterMap g := by
  rw [show (fun x : {a // a ∈ xs} => g x.1) = g ∘ Subtype.val from rfl,
      ← List.filterMap_map, List.attach_map_subtype_val]

/-- The contribution of one child in the `convert_to_markdown` loop. -/
def renderBlockStep (x : J) : Option Str :=
  match x with
  | .jobj _ =>
    let r := convert_node_to_markdown x
    if pstrip r = [] then none else some r
  | _ => none

/-- The contribution of one child in the `convert_bullet_list_to_markdown`
loop. -/
def bulletStep (x : J) : Option Str :=
  match x with
  | .jobj _ =>
    if getType x = lit "listItem" then
      let t := convert_list_item_to_markdown x
      if pstrip t = [] then none else some (lit "- " ++ t)
    else none
  | _ => none

/-- The contribution of one child in `convert_list_item_to_markdown` and
`convert_table_cell_to_markdown` (the two loops are identical). -/
def itemChildStep (x : J) : Option Str :=
  match x with
  | .jobj _ =>
    some (if getType x = lit "paragraph" then
            convert_paragraph_to_markdown x
          else convert_node_to_markdown x)
  | _ => none

/-- The contribution of one child in `convert_blockquote_to_markdown`. -/
def quoteStep (x : J) : Option Str :=
  match x with
  | .jobj _ => some (convert_node_to_markdown x)
  | _ => none

/-- `convert_to_markdown` without the membership bookkeeping of the
well-founded recursion. -/
theorem convert_to_markdown_eq (o cv : J) (hg : jget o "content" = some cv) :
    convert_to_markdown o
      = pjoin (lit "\n\n") ((iterList cv).filterMap renderBlockStep) := by
  rw [convert_to_markdown]
  split
  · rename_i cv' heq
    rw [hg] at heq
    injection heq with h
    subst h
    exact congrArg _ (filterMap_attach_eq _ renderBlockStep)
  · rename_i heq
    rw [hg] at heq
    exact absurd heq (by simp)

theorem convert_to_markdown_none (o : J) (hg : jget o "content" = none) :
    convert_to_markdown o = [] := by
  rw [convert_to_markdown]
  split
  · rename_i cv' heq
    rw [hg] at heq
    exact absurd heq (by simp)
  · rfl

theorem convert_bullet_list_eq (o cv : J) (hg : jget o "content" = some cv) :
    convert_bullet_list_to_markdown o
      = pjoin (lit "\n") ((iterList cv).filterMap bulletStep) := by
  rw [convert_bullet_list_to_markdown]
  split
  · rename_i cv' heq
    rw [hg] at heq
    injection heq with h
    subst h
    exact congrArg _ (filterMap_attach_eq _ bulletStep)
  · rename_i heq
    rw [hg] at heq
    exact absurd heq (by simp)

theorem convert_list_item_eq (o cv : J) (hg : jget o "content" = some cv) :
    convert_list_item_to_markdown o
      = pjoin (lit " ") ((iterList cv).filterMap itemChildStep) := by
  rw [convert_list_item_to_markdown]
  split
  · rename_i cv' heq
    rw [hg] at heq
    injection heq with h
    subst h
    exact congrArg _ (filterMap_attach_eq _ itemChildStep)
  · rename_i heq
    rw [hg] at heq
    exact absurd heq (by simp)

theorem convert_blockquote_eq (o cv : J) (hg : jget o "content" = some cv) :
    convert_blockquote_to_markdown o
      = lit "> " ++ pjoin (lit "\n") ((iterList cv).filterMap quoteStep) := by
  rw [convert_blockquote_to_markdown]
  split
  · rename_i cv' heq
    rw [hg] at heq
    injection heq with h
    subst h
    exact congrArg _ (congrArg _ (filterMap_attach_eq _ quoteStep))
  · rename_i heq
    rw [hg] at heq
    exact absurd heq (by simp)

theorem convert_table_cell_eq (o cv : J) (hg : jget o "content" = some cv) :
    convert_table_cell_to_markdown o
      = pjoin (lit " ") ((iterList cv).filterMap itemChildStep) := by
  rw [convert_table_cell_to_markdown]
  split
  · rename_i cv' heq
    rw [hg] at heq
    injection heq with h
    subst h
    exact congrArg _ (filterMap_attach_eq _ itemChildStep)
  · rename_i heq
    rw [hg] at heq
    exact absurd heq (by simp)

theorem convert_ordered_list_eq (o cv : J) (hg : jget o "content" = some cv) :
    convert_ordered_list_to_markdown o
      = pjoin (lit "\n") (orderedItemsLoop (orderedStart o) 0 (iterList cv)) := by
  rw [convert_ordered_list_to_markdown]
  split
  · rename_i cv' heq
    rw [hg] at heq
    injection heq with h
    subst h
    rfl
  · rename_i heq
    rw [hg] at heq
    exact absurd heq (by simp)

theorem convert_text_node_nontext {n : J} (h : getType n ≠ lit "text") :
    convert_text_node_to_markdown n = [] := by
  unfold convert_text_node_to_markdown
  rw [if_neg h]

/-- The element emitted by the `enumerate` loop for the listItem child at
position `i` of the full content list carries the number `start + j + i`
when the loop is entered with running index `j`. -/
theorem orderedItemsLoop_mem (st : Int) (l : List J) (j i : Nat) (x : J)
    (hx : l.get? i = some x)
    (hobj : isObj x = true) (hty : getType x = lit "listItem")
    (hnb : pstrip (convert_list_item_to_markdown x) ≠ []) :
    intStr (st + (j + i : Nat)) ++ lit ". " ++ convert_list_item_to_markdown x
      ∈ orderedItemsLoop st j l := by
  induction l generalizing j i with
  | nil => simp at hx
  | cons y ys ih =>
    rw [orderedItemsLoop]
    cases i with
    | zero =>
      have hyx : y = x := by simpa using hx
      subst hyx
      rw [if_pos (And.intro hobj hty), if_neg hnb]
      simp
    | succ i' =>
      have hx' : ys.get? i' = some x := by simpa using hx
      have hmem := ih (j + 1) i' hx'
      have hnat : j + (i' + 1) = (j + 1) + i' := by omega
      refine List.mem_append_right _ ?_
      rw [hnat]
      exact hmem

/- concrete nodes used by the renderer claims -/

def exText (s : String) : J :=
  .jobj [("type", .jstr (lit "text")), ("text", .jstr (lit s))]

def exParagraph (cs : List J) : J :=
  .jobj [("type", .jstr (lit "paragraph")), ("content", .jarr cs)]

def exListItem (s : String) : J :=
  .jobj [("type", .jstr (lit "listItem")),
         ("content", .jarr [exParagraph [exText s]])]

/-- An ordered list whose first child is a (skipped) paragraph and whose
second child is the only listItem. -/
def exOrdered : J :=
  .jobj [("type", .jstr (lit "orderedList")),
         ("content", .jarr [exParagraph [exText "p"], exListItem "a"])]

theorem exListItem_render :
    convert_list_item_to_markdown (exListItem "a") = lit "a" := by
  rw [convert_list_item_eq (exListItem "a")
        (J.jarr [exParagraph [exText "a"]]) rfl]
  rfl

/-- C2, counterexample.  The claim says the number of an emitted listItem
advances only over the listItem children actually emitted, so the single
listItem of `exOrdered` (preceded by one skipped paragraph child, default
start 1) would have to render as `1. a`.  The code numbers every child by
`start + enumerate-index`, which gives `2. a` here. -/
theorem c2_ordered_numbering_counterexample :
    convert_ordered_list_to_markdown exOrdered = lit "2. a"
    ∧ lit "2. a" ≠ lit "1. a" := by
  constructor
  · rw [convert_ordered_list_eq exOrdered
          (J.jarr [exParagraph [exText "p"], exListItem "a"]) rfl]
    show pjoin (lit "\n")
        (orderedItemsLoop (orderedStart exOrdered) 0
          [exParagraph [exText "p"], exListItem "a"]) = lit "2. a"
    simp only [orderedItemsLoop]
    rw [exListItem_render]
    decide
  · decide

/-- C2, amended: in `convert_ordered_list_to_markdown` each listItem child
whose rendering is non-blank is emitted as `{n}. ` plus the item text with
`n = start + i`, where `i` is the child's position in the full `content`
list, so skipped non-listItem children (and listItem children whose render
is blank) still advance the number. -/
theorem c2_ordered_numbering_amended (o cv x : J) (i : Nat)
    (hg : jget o "content" = some cv)
    (hx : (iterList cv).get? i = some x)
    (hobj : isObj x = true) (hty : getType x = lit "listItem")
    (hnb : pstrip (convert_list_item_to_markdown x) ≠ []) :
    convert_ordered_list_to_markdown o
      = pjoin (lit "\n") (orderedItemsLoop (orderedStart o) 0 (iterList cv))
    ∧ intStr (orderedStart o + i) ++ lit ". " ++ convert_list_item_to_markdown x
        ∈ orderedItemsLoop (orderedStart o) 0 (iterList cv) := by
  refine ⟨convert_ordered_list_eq o cv hg, ?_⟩
  have := orderedItemsLoop_mem (orderedStart o) (iterList cv) 0 i x hx hobj hty hnb
  simpa using this

theorem c2_ordered_numbering_amended_witness :
    jget exOrdered "content"
      = some (J.jarr [exParagraph [exText "p"], exListItem "a"])
    ∧ (convert_ordered_list_to_markdown exOrdered
        = pjoin (lit "\n")
            (orderedItemsLoop (orderedStart exOrdered) 0
              (iterList (J.jarr [exParagraph [exText "p"], exListItem "a"])))
       ∧ intStr (orderedStart exOrdered + 1) ++ lit ". "
           ++ convert_list_item_to_markdown (exListItem "a")
           ∈ orderedItemsLoop (orderedStart exOrdered) 0
               (iterList (J.jarr [exParagraph [exText "p"], exListItem "a"]))) :=
  ⟨rfl,
   c2_ordered_numbering_amended exOrdered
     (J.jarr [exParagraph [exText "p"], exListItem "a"]) (exListItem "a") 1
     rfl rfl rfl rfl (by rw [exListItem_render]; decide)⟩

/-- C3: a text node with text `t` and marks `[bold, link(href=x)]` renders
to exactly `[**t**](x)`: marks are applied in listed order, each wrapping
the current text, so the link wrap ends up outermost around the bolded
text. -/
theorem c3_mark_composition_bold_link :
    convert_text_node_to_markdown
      (J.jobj [("type", J.jstr (lit "text")), ("text", J.jstr (lit "t")),
               ("marks", J.jarr
                 [J.jobj [("type", J.jstr (lit "bold"))],
                  J.jobj [("type", J.jstr (lit "link")),
                          ("attrs", J.jobj [("href", J.jstr (lit "x"))])]])])
      = lit "[**t**](x)" := by
  rfl

/-- C10: in `convert_paragraph_to_markdown` and
`convert_heading_to_markdown` every child is passed through
`convert_text_node_to_markdown`, which returns the empty string for any
node whose type is not `text`; hence a non-text child (e.g. a nested
image) contributes nothing, and the rendering equals that of the content
list with the child removed. -/
theorem c10_paragraph_heading_text_only (o c : J) (cs₁ cs₂ : List J)
    (hg : jget o "content" = some (J.jarr (cs₁ ++ c :: cs₂)))
    (hobj : isObj c = true) (hty : getType c ≠ lit "text") :
    convert_text_node_to_markdown c = []
    ∧ convert_paragraph_to_markdown o =
        ((cs₁ ++ cs₂).filterMap fun x =>
          if isObj x then some (convert_text_node_to_markdown x)
          else none).flatten
    ∧ convert_heading_to_markdown o =
        List.replicate (headingLevel o).toNat '#' ++ lit " " ++
        ((cs₁ ++ cs₂).filterMap fun x =>
          if isObj x then some (convert_text_node_to_markdown x)
          else none).flatten := by
  have htext := convert_text_node_nontext hty
  refine ⟨htext, ?_, ?_⟩
  · simp only [convert_paragraph_to_markdown, hg, iterList]
    simp [List.filterMap_append, List.filterMap_cons, hobj, htext,
          List.flatten_append]
  · simp only [convert_heading_to_markdown, headingLevel, hg, iterList]
    simp [List.filterMap_append, List.filterMap_cons, hobj, htext,
          List.flatten_append]

def exImage : J :=
  .jobj [("type", .jstr (lit "image")),
         ("attrs", .jobj [("src", .jstr (lit "u"))])]

theorem c10_paragraph_heading_text_only_witness :
    jget (exParagraph [exText "a", exImage, exText "b"]) "content"
      = some (J.jarr ([exText "a"] ++ exImage :: [exText "b"]))
    ∧ (convert_text_node_to_markdown exImage = []
       ∧ convert_paragraph_to_markdown
           (exParagraph [exText "a", exImage, exText "b"]) =
           (([exText "a"] ++ [exText "b"]).filterMap fun x =>
             if isObj x then some (convert_text_node_to_markdown x)
             else none).flatten
       ∧ convert_heading_to_markdown
           (exParagraph [exText "a", exImage, exText "b"]) =
           List.replicate
             (headingLevel (exParagraph [exText "a", exImage, exText "b"])).toNat
             '#' ++ lit " " ++
           (([exText "a"] ++ [exText "b"]).filterMap fun x =>
             if isObj x then some (convert_text_node_to_markdown x)
             else none).flatten) :=
  ⟨rfl,
   c10_paragraph_heading_text_only
     (exParagraph [exText "a", exImage, exText "b"]) exImage
     [exText "a"] [exText "b"] rfl rfl (by decide)⟩

/- ================= environment (external collaborators) ================= -/

/-- The external collaborators of the conversion script, fixed for a run:
`fetch` is the success of the Lambda image proxy for a key
(`download_s3_image_via_lambda`, lines 510-536: non-2xx status, non-image
content-type, timeout and transport errors are all `none`/failure);
`unescape` is `html.unescape`; `jsonParse` is `json.loads` (returning
`none` when the text is not JSON); `isoDate` is the `datetime`
parse-and-format used by `format_date`/`format_date_for_filename`
(`some d` with `d` the `%Y-%m-%d` rendering on success, `none` on a parse
error); `nfkc` is `unicodedata.normalize("NFKC", ·)`; `now` is the
`datetime.now()` timestamp string used for the log entry. -/
structure Env where
  fetch : Str → Bool
  unescape : Str → Str
  jsonParse : Str → Option J
  isoDate : Str → Option Str
  nfkc : Str → Str
  now : Str

/- ===================== text utilities (lines 148-197) ===================== -/

theorem length_dropWhile_le {α : Type} (p : α → Bool) (l : List α) :
    (l.dropWhile p).length ≤ l.length := by
  induction l with
  | nil => simp
  | cons c cs ih =>
    rw [List.dropWhile_cons]
    by_cases h : p c = true
    · simp [h]; omega
    · simp [h]

/-- `re.sub(r'\s+', ' ', text)`: each whitespace run becomes one space. -/
def collapseWS : Str → Str
  | [] => []
  | c :: cs =>
    if pyWS c then ' ' :: collapseWS (cs.dropWhile pyWS)
    else c :: collapseWS cs
termination_by s => s.length
decreasing_by
  · have := length_dropWhile_le pyWS cs
    simp only [List.length_cons]
    omega
  · simp only [List.length_cons]
    omega

/-- `re.sub(r'<[^>]+>', '', text)`: drop `<...>` spans with at least one
character between the brackets; a `<` with no later `>` (or immediately
followed by `>`) stays. -/
def stripHtmlTags : Str → Str
  | [] => []
  | c :: cs =>
    if c = '<' then
      match h : cs.drop (cs.takeWhile (fun d => d ≠ '>')).length with
      | '>' :: rest =>
        if (cs.takeWhile (fun d => d ≠ '>')).length = 0 then
          '<' :: stripHtmlTags cs
        else stripHtmlTags rest
      | _ => '<' :: stripHtmlTags cs
    else c :: stripHtmlTags cs
termination_by s => s.length
decreasing_by
  all_goals simp only [List.length_cons]
  · omega
  · have hlen := congrArg List.length h
    simp only [List.length_drop, List.length_cons] at hlen
    omega
  · omega
  · omega

/-- `clean_text` (lines 181-197). -/
def clean_text (s : Str) : Str :=
  if s = [] then []
  else
    let t := collapseWS s
    let t := pyReplace (lit "\n") (lit " ") t
    let t := pyReplace (lit "\t") (lit " ") t
    let t := stripHtmlTags t
    pstrip t

/-- `\w` of the slugify regex (ASCII word characters; the titles the
claims exercise are ASCII). -/
def pyIsWord (c : Char) : Bool := c.isAlphanum || c = '_'

/-- `re.sub(r"[-\s]+", "-", value)`: each run of hyphens/whitespace
becomes one hyphen. -/
def collapseDashWS : Str → Str
  | [] => []
  | c :: cs =>
    if c = '-' || pyWS c then
      '-' :: collapseDashWS (cs.dropWhile (fun d => d = '-' || pyWS d))
    else c :: collapseDashWS cs
termination_by s => s.length
decreasing_by
  · have := length_dropWhile_le (fun d => d = '-' || pyWS d) cs
    simp only [List.length_cons]
    omega
  · simp only [List.length_cons]
    omega

/-- `slugify` (lines 148-158), `allow_unicode=True` path as called. -/
def slugify (env : Env) (s : Str) : Str :=
  let v := env.nfkc s
  let v := (v.map Char.toLower).filter fun c => pyIsWord c || pyWS c || c = '-'
  stripChars ['-', '_'] (collapseDashWS v)

/- ================ per-article formatting (lines 591-659) ================ -/

/-- `format_date` (lines 591-608): empty input gives `Unknown date`, a
parseable date gives its `%Y-%m-%d` rendering, anything else is returned
unchanged. -/
def format_date (env : Env) (s : Str) : Str :=
  if s = [] then lit "Unknown date"
  else
    match env.isoDate s with
    | some d => d
    | none => s

/-- `format_date_for_filename` (lines 610-627). -/
def format_date_for_filename (env : Env) (s : Str) : Str :=
  if s = [] then lit "unknown-date"
  else
    match env.isoDate s with
    | some d => d
    | none => lit "unknown-date"

/-- `format_authors` (lines 629-641). -/
def format_authors : List Str → Str
  | [] => lit "Unknown author"
  | [a] => a
  | [a, b] => a ++ lit " and " ++ b
  | x :: y :: z :: rest =>
    pjoin (lit ", ") (x :: y :: z :: rest).dropLast
      ++ lit " and " ++ (x :: y :: z :: rest).getLastD []

/-- `format_tags` (lines 643-650). -/
def format_tags (tags : List Str) : Str :=
  if tags = [] then []
  else pjoin (lit " | ") (tags.map fun t => lit "`" ++ t ++ lit "`")

/-- `format_countries` (lines 652-659). -/
def format_countries (countries : List Str) : Str :=
  if countries = [] then []
  else pjoin (lit " | ")
    (countries.map fun c => lit "**" ++ c.map Char.toUpper ++ lit "**")

/-- `parse_content` (lines 199-217): falsy content gives the empty string;
a string is JSON-decoded (rendering the result when it is a dict,
`str(...)` otherwise) and cleaned as plain text when decoding fails; a
dict is rendered; any other value is `str(...)`-formatted. -/
def parse_content (env : Env) (c : J) : Str :=
  if jTruthy c = false then []
  else
    match c with
    | .jstr s =>
      match env.jsonParse s with
      | some d =>
        match d with
        | .jobj _ => convert_to_markdown d
        | _ => pyFmt d
      | none => clean_text s
    | .jobj _ => convert_to_markdown c
    | other => pyFmt other

/- ============== ImageResolver (lines 467-589 and 697-760) ============== -/

/-- The delimiters of the S3-URL regexes: `[^\s\)\]"'<>]` stops a URL
tail. -/
def stopChar (c : Char) : Bool :=
  pyWS c || c = ')' || c = ']' || c = '"' || c = '\'' || c = '<' || c = '>'

/-- The recognized host, scheme included
(`https://geolytics-hub-images.s3.eu-central-1.amazonaws.com/`). -/
def s3UrlHead : Str :=
  lit "https://geolytics-hub-images.s3.eu-central-1.amazonaws.com/"

def s3UrlHeadHttp : Str :=
  lit "http://geolytics-hub-images.s3.eu-central-1.amazonaws.com/"

/-- Case-insensitive literal prefix match (`re.IGNORECASE`); the pattern
is given lowercased, the returned first component is the original text
that matched. -/
def ciPrefixMatch : Str → Str → Option (Str × Str)
  | [], s => some ([], s)
  | _ :: _, [] => none
  | p :: ps, c :: cs =>
    if c.toLower = p then
      match ciPrefixMatch ps cs with
      | some (m, rest) => some (c :: m, rest)
      | none => none
    else none

theorem ciPrefixMatch_spec {p s m rest : Str}
    (h : ciPrefixMatch p s = some (m, rest)) :
    s = m ++ rest ∧ m.length = p.length := by
  induction p generalizing s m rest with
  | nil =>
    simp [ciPrefixMatch] at h
    simp [h.1, h.2]
  | cons pc ps ih =>
    cases s with
    | nil => simp [ciPrefixMatch] at h
    | cons c cs =>
      simp only [ciPrefixMatch] at h
      by_cases hc : c.toLower = pc
      · rw [if_pos hc] at h
        cases hm : ciPrefixMatch ps cs with
        | none => rw [hm] at h; simp at h
        | some pr =>
          obtain ⟨m', rest'⟩ := pr
          rw [hm] at h
          simp only [Option.some_inj, Prod.mk.injEq] at h
          obtain ⟨hm1, hrest⟩ := h
          obtain ⟨hs, hl⟩ := ih hm
          subst hm1
          subst hrest
          constructor
          · simp [hs]
          · simp [hl]
      · rw [if_neg hc] at h
        simp at h

/-- One attempt of the `s3_url_pattern` regex (line 706) at the current
position: `https?` then the host, then a non-empty run of non-delimiter
characters; the returned triple is (full URL, tail after the host, rest
of the text after the match). -/
def tryS3At (s : Str) : Option (Str × Str × Str) :=
  match (match ciPrefixMatch s3UrlHead s with
         | some x => some x
         | none => ciPrefixMatch s3UrlHeadHttp s) with
  | some (m, rest) =>
    let tail := rest.takeWhile fun c => !stopChar c
    if tail = [] then none
    else some (m ++ tail, tail, rest.drop tail.length)
  | none => none

theorem tryS3At_shrinks {s u t rest : Str}
    (h : tryS3At s = some (u, t, rest)) : rest.length < s.length := by
  unfold tryS3At at h
  cases hm : (match ciPrefixMatch s3UrlHead s with
              | some x => some x
              | none => ciPrefixMatch s3UrlHeadHttp s) with
  | none => rw [hm] at h; simp at h
  | some pr =>
    obtain ⟨m, rest'⟩ := pr
    rw [hm] at h
    simp only at h
    by_cases ht : rest'.takeWhile (fun c => !stopChar c) = []
    · rw [if_pos ht] at h; simp at h
    · rw [if_neg ht] at h
      simp only [Option.some_inj, Prod.mk.injEq] at h
      have hspec : s = m ++ rest' ∧ m.length = (s3UrlHead).length ∨
                   s = m ++ rest' ∧ m.length = (s3UrlHeadHttp).length := by
        cases hh : ciPrefixMatch s3UrlHead s with
        | some x => rw [hh] at hm; left; injection hm with e; subst e; exact ciPrefixMatch_spec hh
        | none => rw [hh] at hm; right; exact ciPrefixMatch_spec hm
      have hlen : s.length = m.length + rest'.length := by
        rcases hspec with ⟨he, _⟩ | ⟨he, _⟩ <;> simp [he]
      have hmpos : 0 < m.length := by
        rcases hspec with ⟨_, hl⟩ | ⟨_, hl⟩ <;> rw [hl] <;> decide
      have hrest : rest = rest'.drop (rest'.takeWhile (fun c => !stopChar c)).length :=
        h.2.2.symm
      have : rest.length ≤ rest'.length := by
        rw [hrest]; simp [List.length_drop]
      omega

/-- `s3_url_pattern.finditer` (lines 706-709, 718): scan the text left to
right, emitting each match and continuing after its end. -/
def findS3Urls : Str → List (Str × Str)
  | [] => []
  | c :: cs =>
    match h : tryS3At (c :: cs) with
    | some (u, t, rest) => (u, t) :: findS3Urls rest
    | none => findS3Urls cs
termination_by s => s.length
decreasing_by
  · exact tryS3At_shrinks h
  · simp only [List.length_cons]; omega

/-- One attempt of the `src=["']URL["']` part of `html_img_pattern`
(lines 712-715) at the current position inside a tag: `src=`
(case-insensitive), an opening quote, the host, a non-empty tail, a
closing quote (the character class permits mismatched quotes).  Returns
(URL, tail, total matched length). -/
def tryImgSrcAt (s : Str) : Option (Str × Str × Nat) :=
  match ciPrefixMatch (lit "src=") s with
  | some (_, r1) =>
    match r1 with
    | q :: r2 =>
      if q = '"' || q = '\'' then
        match (match ciPrefixMatch s3UrlHead r2 with
               | some x => some x
               | none => ciPrefixMatch s3UrlHeadHttp r2) with
        | some (m, r3) =>
          let tail := r3.takeWhile fun c => !stopChar c
          if tail = [] then none
          else
            match r3.drop tail.length with
            | q2 :: _ =>
              if q2 = '"' || q2 = '\'' then
                some (m ++ tail, tail, 4 + 1 + m.length + tail.length + 1)
              else none
            | [] => none
        | none => none
      else none
    | [] => none
  | none => none

/-- The candidate `src=` matches inside one `<img ...>` tag region,
tagged with their end offset; the regex `[^>]+` is greedy, so the engine
keeps the last one. -/
def imgCandidates : Str → Nat → List (Str × Str × Nat)
  | [], _ => []
  | c :: cs, pos =>
    (match tryImgSrcAt (c :: cs) with
     | some (u, t, len) => [(u, t, pos + len)]
     | none => []) ++ imgCandidates cs (pos + 1)

/-- One attempt of `html_img_pattern` (lines 712-715) at the current
position: `<img` (case-insensitive), at least one non-`>` character, then
the last `src=` URL candidate of the tag region. -/
def tryImgAt (s : Str) : Option (Str × Str × Str) :=
  match ciPrefixMatch (lit "<img") s with
  | some (_, r) =>
    let seg := r.takeWhile fun c => c ≠ '>'
    match (imgCandidates (seg.drop 1) 1).getLast? with
    | some (u, t, endPos) => some (u, t, r.drop endPos)
    | none => none
  | none => none

theorem tryImgAt_shrinks {s u t rest : Str}
    (h : tryImgAt s = some (u, t, rest)) : rest.length < s.length := by
  unfold tryImgAt at h
  cases hm : ciPrefixMatch (lit "<img") s with
  | none => rw [hm] at h; simp at h
  | some pr =>
    obtain ⟨m, r⟩ := pr
    rw [hm] at h
    simp only at h
    cases hc : (imgCandidates ((r.takeWhile fun c => c ≠ '>').drop 1) 1).getLast? with
    | none => rw [hc] at h; simp at h
    | some cand =>
      obtain ⟨u', t', endPos⟩ := cand
      rw [hc] at h
      simp only [Option.some_inj, Prod.mk.injEq] at h
      obtain ⟨hs, hlm⟩ := ciPrefixMatch_spec hm
      have hr : rest = r.drop endPos := h.2.2.symm
      have h1 : rest.length ≤ r.length := by rw [hr]; simp [List.length_drop]
      have h2 : s.length = m.length + r.length := by simp [hs]
      have h3 : 0 < m.length := by rw [hlm]; decide
      omega

/-- `html_img_pattern.finditer` (line 719). -/
def findImgS3Urls : Str → List (Str × Str)
  | [] => []
  | c :: cs =>
    match h : tryImgAt (c :: cs) with
    | some (u, t, rest) => (u, t) :: findImgS3Urls rest
    | none => findImgS3Urls cs
termination_by s => s.length
decreasing_by
  · exact tryImgAt_shrinks h
  · simp only [List.length_cons]; omega

/-- `compute_local_image_paths` / `save_image_locally` relative result
(lines 538-580): the key's slash-separated segments under `images/`,
`./`-prefixed. -/
def localRel (key : Str) : Str := lit "./images/" ++ key

/-- The state of the URL-mapping loop of `generate_article_markdown`
(lines 699-746): the URL-to-local-path mapping built so far (a Python
dict in insertion order), the set of image keys present on disk, and the
keys passed to `download_s3_image_via_lambda` (one entry per call). -/
structure ImgScan where
  mapping : List (Str × Str)
  images : List Str
  fetched : List Str

/-- `full_tail.split('?', 1)[0]` (line 726): the cache key is the tail
with any query string stripped. -/
def keyOf (t : Str) : Str := t.takeWhile fun c => c ≠ '?'

/-- One iteration of the match loop (lines 722-746): an already-mapped
URL is skipped; a key whose local file exists is reused with no network
call; otherwise the image is fetched once — on success it is saved and
the `./`-relative path recorded, on failure the original URL is kept. -/
def imgStep (env : Env) (st : ImgScan) (m : Str × Str) : ImgScan :=
  let url := m.1
  let key := keyOf m.2
  if (st.mapping.map Prod.fst).contains url then st
  else if st.images.contains key then
    { st with mapping := st.mapping ++ [(url, localRel key)] }
  else if env.fetch key then
    { mapping := st.mapping ++ [(url, localRel key)]
      images := key :: st.images
      fetched := st.fetched ++ [key] }
  else
    { st with
      mapping := st.mapping ++ [(url, url)]
      fetched := st.fetched ++ [key] }

def imgFold (env : Env) (imgs : List Str) (ms : List (Str × Str)) : ImgScan :=
  ms.foldl (imgStep env) ⟨[], imgs, []⟩

/-- The replacement loop (lines 749-751): each mapping entry is applied
with `str.replace` in insertion order. -/
def applyMapping (mapping : List (Str × Str)) (content : Str) : Str :=
  mapping.foldl (fun c uv => pyReplace uv.1 uv.2 c) content

/- ===== link_to_image_pattern (lines 753-760) ===== -/

def imageExts : List Str :=
  [lit "png", lit "jpg", lit "jpeg", lit "gif", lit "webp", lit "svg"]

/-- Does a link target match
`(?:\.\/?images\/)[^)]+\.(?:png|jpg|jpeg|gif|webp|svg)` (the target has
already been cut at the closing parenthesis, so it contains no `)`)? -/
def isImageTarget (r : Str) : Bool :=
  (if List.isPrefixOf (lit "./images/") r then
     (imageExts.any fun e =>
       List.isSuffixOf ('.' :: e) (r.map Char.toLower)
         && decide (9 + 1 + (e.length + 1) ≤ r.length))
   else if List.isPrefixOf (lit ".images/") r then
     (imageExts.any fun e =>
       List.isSuffixOf ('.' :: e) (r.map Char.toLower)
         && decide (8 + 1 + (e.length + 1) ≤ r.length))
   else false)

/-- `link_to_image_pattern.sub` (lines 756-760): rewrite
`[alt](./images/….ext)` to `![](./images/….ext)` unless the `[` is
preceded by `!`; the scan is left to right and continues after each
replacement. -/
def linkToImageGo (prev : Option Char) : Str → Str
  | [] => []
  | c :: cs =>
    if c = '[' ∧ prev ≠ some '!' then
      match h1 : cs.drop (cs.takeWhile fun d => d ≠ ']').length with
      | ']' :: '(' :: r2 =>
        match h2 : r2.drop (r2.takeWhile fun d => d ≠ ')').length with
        | ')' :: r4 =>
          if isImageTarget (r2.takeWhile fun d => d ≠ ')') then
            lit "![](" ++ (r2.takeWhile fun d => d ≠ ')') ++ lit ")"
              ++ linkToImageGo (some ')') r4
          else c :: linkToImageGo (some c) cs
        | _ => c :: linkToImageGo (some c) cs
      | _ => c :: linkToImageGo (some c) cs
    else c :: linkToImageGo (some c) cs
termination_by s => s.length
decreasing_by
  all_goals simp only [List.length_cons]
  · have e1 := congrArg List.length h1
    have e2 := congrArg List.length h2
    simp only [List.length_drop, List.length_cons] at e1 e2
    omega
  all_goals omega

def linkToImage (s : Str) : Str := linkToImageGo none s

/- ============ ArticleAssembler (lines 675-800) ============ -/

/-- One article record of the `topics` array, with the fields
`generate_article_markdown` reads (each `article.get(...)` default is the
empty value of the field's type). -/
structure Article where
  id : Str
  title : Str
  authors : List Str
  last_edited : Str
  tags : List Str
  countries : List Str
  channels : List Str
  key_takeaways : Str
  content : J

/-- The `md_content` list built in lines 762-798 and joined with
newlines in line 800; `body` is the (image-rewritten) parsed content. -/
def assembleDocument (env : Env) (a : Article) (body : Str) : Str :=
  pjoin (lit "\n")
    ([lit "# " ++ a.title, [], lit "## Basic Information"]
     ++ (if a.id ≠ [] then [lit "- **ID**: " ++ a.id] else [])
     ++ [lit "- **Author**: " ++ format_authors a.authors,
         lit "- **Last Edited**: " ++ format_date env a.last_edited,
         []]
     ++ (if a.channels ≠ [] then
           [lit "## Categories",
            lit "- **Channels**: " ++ pjoin (lit ", ") a.channels]
         else [])
     ++ (if a.tags ≠ [] then [lit "- **Tags**: " ++ format_tags a.tags]
         else [])
     ++ (if a.countries ≠ [] then
           [lit "- **Countries**: " ++ format_countries a.countries]
         else [])
     ++ [[]]
     ++ (if a.key_takeaways ≠ [] then
           [lit "## Key Takeaways", clean_text a.key_takeaways, []]
         else [])
     ++ (if pstrip body ≠ [] then [lit "## Article Content", body, []]
         else []))

/-- `generate_article_markdown` (lines 675-800): render the content,
scan the (entity-unescaped) rendered text for recognized-host image URLs,
resolve each distinct URL to a local path (downloading at most once per
key), substitute the mapping into the rendered text, upgrade markdown
links to local image files into image syntax, and assemble the document.
Returns the document, the resulting set of locally present image keys,
and the keys fetched through the proxy. -/
def resolvedBody (env : Env) (a : Article) (imgs : List Str) :
    Str × List Str × List Str :=
  let parsed := parse_content env a.content
  let scan :=
    if parsed ≠ [] then
      let scannable := env.unescape parsed
      imgFold env imgs (findS3Urls scannable ++ findImgS3Urls scannable)
    else ⟨[], imgs, []⟩
  let parsed2 :=
    if scan.mapping ≠ [] then linkToImage (applyMapping scan.mapping parsed)
    else parsed
  (parsed2, scan.images, scan.fetched)

def generate_article_markdown (env : Env) (a : Article) (imgs : List Str) :
    Str × List Str × List Str :=
  let r := resolvedBody env a imgs
  (assembleDocument env a r.1, r.2.1, r.2.2)

/- ============ lemmas about the image-mapping loop (C4, C5) ============ -/

/-- Lookup in the URL mapping (Python dict lookup; first hit, and the
loop never inserts a URL twice). -/
def mapLookup (u : Str) : List (Str × Str) → Option Str
  | [] => none
  | (k, v) :: rest => if k = u then some v else mapLookup u rest

theorem mapLookup_append_isSome {u : Str} {m m' : List (Str × Str)}
    (h : mapLookup u m ≠ none) :
    mapLookup u (m ++ m') = mapLookup u m := by
  induction m with
  | nil => simp [mapLookup] at h
  | cons p rest ih =>
    obtain ⟨pk, pv⟩ := p
    simp only [mapLookup, List.cons_append] at *
    by_cases hk : pk = u
    · simp [hk]
    · simp only [if_neg hk] at *
      exact ih h

theorem mapLookup_append_none {u : Str} {m m' : List (Str × Str)}
    (h : mapLookup u m = none) :
    mapLookup u (m ++ m') = mapLookup u m' := by
  induction m with
  | nil => simp
  | cons p rest ih =>
    obtain ⟨pk, pv⟩ := p
    simp only [mapLookup, List.cons_append] at *
    by_cases hk : pk = u
    · simp [hk] at h
    · simp only [if_neg hk] at *
      exact ih h

theorem mapLookup_append_single_ne {u u' v : Str} {m : List (Str × Str)}
    (h : u ≠ u') :
    mapLookup u (m ++ [(u', v)]) = mapLookup u m := by
  by_cases hm : mapLookup u m = none
  · rw [mapLookup_append_none hm, hm]
    simp only [mapLookup]
    rw [if_neg (fun he => h he.symm)]
  · exact mapLookup_append_isSome hm

theorem mapLookup_append_single_self {u v : Str} {m : List (Str × Str)}
    (h : mapLookup u m = none) :
    mapLookup u (m ++ [(u, v)]) = some v := by
  rw [mapLookup_append_none h]
  simp [mapLookup]

/-- Python's `url in mapping` test in terms of `mapLookup`. -/
theorem containsFst_iff (m : List (Str × Str)) (u : Str) :
    ((m.map Prod.fst).contains u = true) ↔ mapLookup u m ≠ none := by
  induction m with
  | nil => simp [mapLookup]
  | cons p rest ih =>
    obtain ⟨pk, pv⟩ := p
    simp only [List.map_cons, mapLookup]
    by_cases hk : pk = u
    · subst hk
      simp [List.elem_iff]
    · constructor
      · intro h
        rw [if_neg hk]
        apply ih.mp
        simp only [List.elem_iff, List.mem_cons] at h
        rcases h with h | h
        · exact absurd h.symm hk
        · simp [List.elem_iff, h]
      · intro h
        rw [if_neg hk] at h
        have := ih.mpr h
        simp only [List.elem_iff] at this ⊢
        exact List.mem_cons_of_mem _ this

theorem imgStep_skip {env : Env} {st : ImgScan} {m : Str × Str}
    (h : mapLookup m.1 st.mapping ≠ none) :
    imgStep env st m = st := by
  unfold imgStep
  rw [if_pos ((containsFst_iff _ _).mpr h)]

theorem imgStep_reuse {env : Env} {st : ImgScan} {m : Str × Str}
    (h1 : mapLookup m.1 st.mapping = none) (h2 : keyOf m.2 ∈ st.images) :
    imgStep env st m
      = { st with mapping := st.mapping ++ [(m.1, localRel (keyOf m.2))] } := by
  unfold imgStep
  rw [if_neg (fun hc => ((containsFst_iff _ _).mp hc) h1),
      if_pos (List.elem_iff.mpr h2)]

theorem imgStep_fetch_ok {env : Env} {st : ImgScan} {m : Str × Str}
    (h1 : mapLookup m.1 st.mapping = none) (h2 : keyOf m.2 ∉ st.images)
    (h3 : env.fetch (keyOf m.2) = true) :
    imgStep env st m
      = { mapping := st.mapping ++ [(m.1, localRel (keyOf m.2))]
          images := keyOf m.2 :: st.images
          fetched := st.fetched ++ [keyOf m.2] } := by
  unfold imgStep
  rw [if_neg (fun hc => ((containsFst_iff _ _).mp hc) h1),
      if_neg (fun hc => h2 (List.elem_iff.mp hc)), if_pos h3]

theorem imgStep_fetch_fail {env : Env} {st : ImgScan} {m : Str × Str}
    (h1 : mapLookup m.1 st.mapping = none) (h2 : keyOf m.2 ∉ st.images)
    (h3 : env.fetch (keyOf m.2) = false) :
    imgStep env st m
      = { st with
          mapping := st.mapping ++ [(m.1, m.1)]
          fetched := st.fetched ++ [keyOf m.2] } := by
  unfold imgStep
  rw [if_neg (fun hc => ((containsFst_iff _ _).mp hc) h1),
      if_neg (fun hc => h2 (List.elem_iff.mp hc))]
  rw [h3]
  simp

/-- The four possible outcomes of one iteration of the match loop. -/
theorem imgStep_cases (env : Env) (st : ImgScan) (m : Str × Str) :
    imgStep env st m = st
    ∨ imgStep env st m
        = { st with mapping := st.mapping ++ [(m.1, localRel (keyOf m.2))] }
    ∨ imgStep env st m
        = { mapping := st.mapping ++ [(m.1, localRel (keyOf m.2))]
            images := keyOf m.2 :: st.images
            fetched := st.fetched ++ [keyOf m.2] }
    ∨ imgStep env st m
        = { st with
            mapping := st.mapping ++ [(m.1, m.1)]
            fetched := st.fetched ++ [keyOf m.2] } := by
  by_cases h1 : mapLookup m.1 st.mapping = none
  · by_cases h2 : keyOf m.2 ∈ st.images
    · right; left; exact imgStep_reuse h1 h2
    · by_cases h3 : env.fetch (keyOf m.2) = true
      · right; right; left; exact imgStep_fetch_ok h1 h2 h3
      · right; right; right
        exact imgStep_fetch_fail h1 h2 (by simpa using h3)
  · left; exact imgStep_skip h1

/-- A URL already resolved keeps its value for the rest of the match
loop. -/
theorem imgFoldLoop_lookup_persists (env : Env) (u v : Str) :
    ∀ (ms : List (Str × Str)) (st : ImgScan),
      mapLookup u st.mapping = some v →
      mapLookup u (ms.foldl (imgStep env) st).mapping = some v := by
  intro ms
  induction ms with
  | nil => intro st h; simpa using h
  | cons m rest ih =>
    intro st h
    rw [List.foldl_cons]
    apply ih
    have hker : mapLookup u (st.mapping ++ [(m.1, localRel (keyOf m.2))]) = some v := by
      rw [mapLookup_append_isSome (by rw [h]; simp)]; exact h
    have hker2 : mapLookup u (st.mapping ++ [(m.1, m.1)]) = some v := by
      rw [mapLookup_append_isSome (by rw [h]; simp)]; exact h
    rcases imgStep_cases env st m with he | he | he | he <;> rw [he]
    · exact h
    · exact hker
    · exact hker
    · exact hker2

/-- Once the key is locally present and every pending URL with that key
is either unresolved or already resolved to the key's local path, the
rest of the loop performs no further fetch for the key and resolves every
such URL to that same local path. -/
theorem imgFoldLoop_done (env : Env) (k : Str) :
    ∀ (ms : List (Str × Str)) (st : ImgScan),
      k ∈ st.images →
      (∀ p ∈ ms, ∀ q ∈ ms, p.1 = q.1 → p.2 = q.2) →
      (∀ p ∈ ms, keyOf p.2 = k →
        mapLookup p.1 st.mapping = none
        ∨ mapLookup p.1 st.mapping = some (localRel k)) →
      (ms.foldl (imgStep env) st).fetched.count k = st.fetched.count k
      ∧ ∀ p ∈ ms, keyOf p.2 = k →
          mapLookup p.1 (ms.foldl (imgStep env) st).mapping
            = some (localRel k) := by
  intro ms
  induction ms with
  | nil => intro st himg hcons hpend; simp
  | cons m rest ih =>
    intro st himg hcons hpend
    have hcons' : ∀ p ∈ rest, ∀ q ∈ rest, p.1 = q.1 → p.2 = q.2 :=
      fun p hp q hq => hcons p (by simp [hp]) q (by simp [hq])
    rw [List.foldl_cons]
    by_cases hk : keyOf m.2 = k
    · rcases hpend m (by simp) hk with hnone | hdone
      · rw [imgStep_reuse hnone (by rw [hk]; exact himg)]
        have hres : mapLookup m.1
            (st.mapping ++ [(m.1, localRel (keyOf m.2))])
              = some (localRel k) := by
          rw [hk]
          exact mapLookup_append_single_self hnone
        have hrec := ih
          { st with mapping := st.mapping ++ [(m.1, localRel (keyOf m.2))] }
          himg hcons'
          (fun p hp hpk => by
            by_cases hpu : p.1 = m.1
            · right
              show mapLookup p.1 (st.mapping ++ [(m.1, localRel (keyOf m.2))])
                    = some (localRel k)
              rw [hpu]
              exact hres
            · have hpd := hpend p (by simp [hp]) hpk
              simpa [mapLookup_append_single_ne hpu] using hpd)
        refine ⟨hrec.1, ?_⟩
        intro p hp hpk
        rcases List.mem_cons.mp hp with heq | hp'
        · rw [heq]
          exact imgFoldLoop_lookup_persists env m.1 (localRel k) rest _ hres
        · exact hrec.2 p hp' hpk
      · rw [imgStep_skip (by rw [hdone]; simp)]
        have hrec := ih st himg hcons'
          (fun p hp hpk => hpend p (by simp [hp]) hpk)
        refine ⟨hrec.1, ?_⟩
        intro p hp hpk
        rcases List.mem_cons.mp hp with heq | hp'
        · rw [heq]
          exact imgFoldLoop_lookup_persists env m.1 (localRel k) rest st hdone
        · exact hrec.2 p hp' hpk
    · have hne : ∀ p ∈ rest, keyOf p.2 = k → p.1 ≠ m.1 := by
        intro p hp hpk he
        have := hcons p (by simp [hp]) m (by simp) he
        rw [this] at hpk
        exact hk hpk
      have hwrap : ∀ st' : ImgScan,
          ((rest.foldl (imgStep env) st').fetched.count k
              = st'.fetched.count k
           ∧ ∀ p ∈ rest, keyOf p.2 = k →
               mapLookup p.1 (rest.foldl (imgStep env) st').mapping
                 = some (localRel k)) →
          st'.fetched.count k = st.fetched.count k →
          ((rest.foldl (imgStep env) st').fetched.count k
              = st.fetched.count k
           ∧ ∀ p ∈ m :: rest, keyOf p.2 = k →
               mapLookup p.1 (rest.foldl (imgStep env) st').mapping
                 = some (localRel k)) := by
        intro st' hrec hcnt
        refine ⟨by rw [hrec.1, hcnt], ?_⟩
        intro p hp hpk
        rcases List.mem_cons.mp hp with heq | hp'
        · rw [heq] at hpk; exact absurd hpk hk
        · exact hrec.2 p hp' hpk
      rcases imgStep_cases env st m with he | he | he | he <;> rw [he]
      · exact hwrap st
          (ih st himg hcons' fun p hp hpk => hpend p (by simp [hp]) hpk)
          rfl
      · refine hwrap _ (ih _ himg hcons' (fun p hp hpk => by
          have hpd := hpend p (by simp [hp]) hpk
          simpa [mapLookup_append_single_ne (hne p hp hpk)] using hpd)) rfl
      · refine hwrap _ (ih _ (List.mem_cons_of_mem _ himg) hcons'
          (fun p hp hpk => by
            have hpd := hpend p (by simp [hp]) hpk
            simpa [mapLookup_append_single_ne (hne p hp hpk)] using hpd)) ?_
        show (st.fetched ++ [keyOf m.2]).count k = st.fetched.count k
        simp [List.count_append, List.count_cons, hk]
      · refine hwrap _ (ih _ himg hcons'
          (fun p hp hpk => by
            have hpd := hpend p (by simp [hp]) hpk
            simpa [mapLookup_append_single_ne (hne p hp hpk)] using hpd)) ?_
        show (st.fetched ++ [keyOf m.2]).count k = st.fetched.count k
        simp [List.count_append, List.count_cons, hk]

/-- Before any URL with the key has been processed, as soon as one is
(and the key is not cached and its fetch succeeds), the loop downloads
the key exactly once and resolves every URL with that key to the key's
local path. -/
theorem imgFoldLoop_first (env : Env) (k : Str) (hf : env.fetch k = true) :
    ∀ (ms : List (Str × Str)) (st : ImgScan),
      k ∉ st.images →
      st.fetched.count k = 0 →
      (∀ p ∈ ms, ∀ q ∈ ms, p.1 = q.1 → p.2 = q.2) →
      (∀ p ∈ ms, keyOf p.2 = k → mapLookup p.1 st.mapping = none) →
      (∃ p, p ∈ ms ∧ keyOf p.2 = k) →
      (ms.foldl (imgStep env) st).fetched.count k = 1
      ∧ ∀ p ∈ ms, keyOf p.2 = k →
          mapLookup p.1 (ms.foldl (imgStep env) st).mapping
            = some (localRel k) := by
  intro ms
  induction ms with
  | nil =>
    intro st _ _ _ _ hex
    obtain ⟨p, hp, _⟩ := hex
    simp at hp
  | cons m rest ih =>
    intro st himg hcnt hcons hpend hex
    have hcons' : ∀ p ∈ rest, ∀ q ∈ rest, p.1 = q.1 → p.2 = q.2 :=
      fun p hp q hq => hcons p (by simp [hp]) q (by simp [hq])
    rw [List.foldl_cons]
    by_cases hk : keyOf m.2 = k
    · have hnone := hpend m (by simp) hk
      rw [imgStep_fetch_ok hnone (by rw [hk]; exact himg) (by rw [hk]; exact hf)]
      have hres : mapLookup m.1
          (st.mapping ++ [(m.1, localRel (keyOf m.2))])
            = some (localRel k) := by
        rw [hk]
        exact mapLookup_append_single_self hnone
      have hdone := imgFoldLoop_done env k rest
          { mapping := st.mapping ++ [(m.1, localRel (keyOf m.2))]
            images := keyOf m.2 :: st.images
            fetched := st.fetched ++ [keyOf m.2] }
          (by rw [hk]; exact List.mem_cons_self _ _)
          hcons'
          (fun p hp hpk => by
            by_cases hpu : p.1 = m.1
            · right
              show mapLookup p.1 (st.mapping ++ [(m.1, localRel (keyOf m.2))])
                    = some (localRel k)
              rw [hpu]
              exact hres
            · left
              have hpd := hpend p (by simp [hp]) hpk
              simpa [mapLookup_append_single_ne hpu] using hpd)
      constructor
      · rw [hdone.1]
        show (st.fetched ++ [keyOf m.2]).count k = 1
        rw [hk]
        simp [List.count_append, List.count_cons, hcnt]
      · intro p hp hpk
        rcases List.mem_cons.mp hp with heq | hp'
        · rw [heq]
          exact imgFoldLoop_lookup_persists env m.1 (localRel k) rest _ hres
        · exact hdone.2 p hp' hpk
    · have hne : ∀ p ∈ rest, keyOf p.2 = k → p.1 ≠ m.1 := by
        intro p hp hpk he
        have := hcons p (by simp [hp]) m (by simp) he
        rw [this] at hpk
        exact hk hpk
      have hex' : ∃ p, p ∈ rest ∧ keyOf p.2 = k := by
        obtain ⟨p, hp, hpk⟩ := hex
        rcases List.mem_cons.mp hp with heq | hp'
        · rw [heq] at hpk; exact absurd hpk hk
        · exact ⟨p, hp', hpk⟩
      have hwrap : ∀ st' : ImgScan,
          ((rest.foldl (imgStep env) st').fetched.count k = 1
           ∧ ∀ p ∈ rest, keyOf p.2 = k →
               mapLookup p.1 (rest.foldl (imgStep env) st').mapping
                 = some (localRel k)) →
          ((rest.foldl (imgStep env) st').fetched.count k = 1
           ∧ ∀ p ∈ m :: rest, keyOf p.2 = k →
               mapLookup p.1 (rest.foldl (imgStep env) st').mapping
                 = some (localRel k)) := by
        intro st' hrec
        refine ⟨hrec.1, ?_⟩
        intro p hp hpk
        rcases List.mem_cons.mp hp with heq | hp'
        · rw [heq] at hpk; exact absurd hpk hk
        · exact hrec.2 p hp' hpk
      have hcntK : (st.fetched ++ [keyOf m.2]).count k = 0 := by
        simp [List.count_append, List.count_cons, hk, hcnt]
      rcases imgStep_cases env st m with he | he | he | he <;> rw [he]
      · exact hwrap st
          (ih st himg hcnt hcons' (fun p hp hpk => hpend p (by simp [hp]) hpk)
            hex')
      · exact hwrap _
          (ih _ himg hcnt hcons'
            (fun p hp hpk => by
              have hpd := hpend p (by simp [hp]) hpk
              simpa [mapLookup_append_single_ne (hne p hp hpk)] using hpd)
            hex')
      · exact hwrap _
          (ih _ (by simp only [List.mem_cons]; tauto) hcntK hcons'
            (fun p hp hpk => by
              have hpd := hpend p (by simp [hp]) hpk
              simpa [mapLookup_append_single_ne (hne p hp hpk)] using hpd)
            hex')
      · exact hwrap _
          (ih _ himg hcntK hcons'
            (fun p hp hpk => by
              have hpd := hpend p (by simp [hp]) hpk
              simpa [mapLookup_append_single_ne (hne p hp hpk)] using hpd)
            hex')

/-- When the key is not cached and its fetch fails, every URL with that
key is mapped to itself (the original remote URL). -/
theorem imgFoldLoop_fail (env : Env) (k : Str) (hf : env.fetch k = false) :
    ∀ (ms : List (Str × Str)) (st : ImgScan),
      k ∉ st.images →
      (∀ p ∈ ms, ∀ q ∈ ms, p.1 = q.1 → p.2 = q.2) →
      (∀ p ∈ ms, keyOf p.2 = k →
        mapLookup p.1 st.mapping = none
        ∨ mapLookup p.1 st.mapping = some p.1) →
      ∀ p ∈ ms, keyOf p.2 = k →
        mapLookup p.1 (ms.foldl (imgStep env) st).mapping = some p.1 := by
  intro ms
  induction ms with
  | nil => intro st _ _ _ p hp; simp at hp
  | cons m rest ih =>
    intro st himg hcons hpend
    have hcons' : ∀ p ∈ rest, ∀ q ∈ rest, p.1 = q.1 → p.2 = q.2 :=
      fun p hp q hq => hcons p (by simp [hp]) q (by simp [hq])
    rw [List.foldl_cons]
    by_cases hk : keyOf m.2 = k
    · rcases hpend m (by simp) hk with hnone | hdone
      · rw [imgStep_fetch_fail hnone (by rw [hk]; exact himg) (by rw [hk]; exact hf)]
        have hres : mapLookup m.1 (st.mapping ++ [(m.1, m.1)]) = some m.1 :=
          mapLookup_append_single_self hnone
        have hrec := ih
          { st with
            mapping := st.mapping ++ [(m.1, m.1)]
            fetched := st.fetched ++ [keyOf m.2] }
          himg hcons'
          (fun p hp hpk => by
            by_cases hpu : p.1 = m.1
            · right
              show mapLookup p.1 (st.mapping ++ [(m.1, m.1)]) = some p.1
              rw [hpu]
              exact hres
            · have hpd := hpend p (by simp [hp]) hpk
              simpa [mapLookup_append_single_ne hpu] using hpd)
        intro p hp hpk
        rcases List.mem_cons.mp hp with heq | hp'
        · rw [heq]
          exact imgFoldLoop_lookup_persists env m.1 m.1 rest _ hres
        · exact hrec p hp' hpk
      · rw [imgStep_skip (by rw [hdone]; simp)]
        have hrec := ih st himg hcons'
          (fun p hp hpk => hpend p (by simp [hp]) hpk)
        intro p hp hpk
        rcases List.mem_cons.mp hp with heq | hp'
        · rw [heq]
          exact imgFoldLoop_lookup_persists env m.1 m.1 rest st hdone
        · exact hrec p hp' hpk
    · have hne : ∀ p ∈ rest, keyOf p.2 = k → p.1 ≠ m.1 := by
        intro p hp hpk he
        have := hcons p (by simp [hp]) m (by simp) he
        rw [this] at hpk
        exact hk hpk
      have hwrap : ∀ st' : ImgScan,
          (∀ p ∈ rest, keyOf p.2 = k →
            mapLookup p.1 (rest.foldl (imgStep env) st').mapping = some p.1) →
          ∀ p ∈ m :: rest, keyOf p.2 = k →
            mapLookup p.1 (rest.foldl (imgStep env) st').mapping = some p.1 := by
        intro st' hrec p hp hpk
        rcases List.mem_cons.mp hp with heq | hp'
        · rw [heq] at hpk; exact absurd hpk hk
        · exact hrec p hp' hpk
      rcases imgStep_cases env st m with he | he | he | he <;> rw [he]
      · exact hwrap st
          (ih st himg hcons' fun p hp hpk => hpend p (by simp [hp]) hpk)
      · exact hwrap _
          (ih _ himg hcons' fun p hp hpk => by
            have hpd := hpend p (by simp [hp]) hpk
            simpa [mapLookup_append_single_ne (hne p hp hpk)] using hpd)
      · exact hwrap _
          (ih _ (by simp only [List.mem_cons]; tauto) hcons'
            fun p hp hpk => by
              have hpd := hpend p (by simp [hp]) hpk
              simpa [mapLookup_append_single_ne (hne p hp hpk)] using hpd)
      · exact hwrap _
          (ih _ himg hcons' fun p hp hpk => by
            have hpd := hpend p (by simp [hp]) hpk
            simpa [mapLookup_append_single_ne (hne p hp hpk)] using hpd)

theorem pyReplace_self_bounded (u : Str) :
    ∀ (n : Nat) (s : Str), s.length ≤ n → pyReplace u u s = s := by
  intro n
  induction n with
  | zero =>
    intro s hs
    have : s = [] := List.eq_nil_of_length_eq_zero (Nat.le_zero.mp hs)
    subst this
    rw [pyReplace]
  | succ n ih =>
    intro s hs
    cases s with
    | nil => rw [pyReplace]
    | cons c cs =>
      rw [pyReplace]
      split
      · rename_i h
        obtain ⟨hne, hpre⟩ := h
        have hp : u <+: (c :: cs) := (List.isPrefixOf_iff_prefix).mp hpre
        obtain ⟨t, ht⟩ := hp
        have hdrop : (c :: cs).drop u.length = t := by
          rw [← ht]
          exact List.drop_left u t
        rw [hdrop]
        have hulen : 0 < u.length := List.length_pos.mpr hne
        have htlen : t.length ≤ n := by
          have := congrArg List.length ht
          simp only [List.length_append, List.length_cons] at this
          simp only [List.length_cons] at hs
          omega
        rw [ih t htlen]
        exact ht
      · have : cs.length ≤ n := by
          simp only [List.length_cons] at hs
          omega
        rw [ih cs this]

/-- `s.replace(u, u)` is the identity: replacing a URL by itself leaves
the document byte-identical. -/
theorem pyReplace_self (u : Str) (s : Str) : pyReplace u u s = s :=
  pyReplace_self_bounded u s.length s (Nat.le_refl _)

/-- C4: two recognized-host URLs in the scanned matches that share the
same extracted key but differ as strings (signed-URL variants), where the
key is not already cached and its fetch succeeds, are both resolved to
the same local path and the loop downloads the key exactly once.  The
consistency hypothesis `hcons` states that a URL determines its tail,
which holds for the regex matches (the URL is the host followed by the
tail). -/
theorem c4_image_key_dedup (env : Env) (imgs₀ : List Str)
    (ms : List (Str × Str)) (u₁ t₁ u₂ t₂ k : Str)
    (h₁ : (u₁, t₁) ∈ ms) (h₂ : (u₂, t₂) ∈ ms) (hne : u₁ ≠ u₂)
    (hk₁ : keyOf t₁ = k) (hk₂ : keyOf t₂ = k)
    (hcons : ∀ p ∈ ms, ∀ q ∈ ms, p.1 = q.1 → p.2 = q.2)
    (hnew : k ∉ imgs₀) (hf : env.fetch k = true) :
    mapLookup u₁ (imgFold env imgs₀ ms).mapping = some (localRel k)
    ∧ mapLookup u₂ (imgFold env imgs₀ ms).mapping = some (localRel k)
    ∧ (imgFold env imgs₀ ms).fetched.count k = 1 := by
  have h := imgFoldLoop_first env k hf ms ⟨[], imgs₀, []⟩
    hnew (by simp) hcons
    (fun p _ _ => by simp [mapLookup])
    ⟨(u₁, t₁), h₁, hk₁⟩
  exact ⟨h.2 (u₁, t₁) h₁ hk₁, h.2 (u₂, t₂) h₂ hk₂, h.1⟩

def env4 : Env :=
  { fetch := fun _ => true, unescape := id, jsonParse := fun _ => none,
    isoDate := fun _ => none, nfkc := id, now := [] }

def ms4 : List (Str × Str) :=
  [(lit "u1", lit "a/b.png?sig=1"), (lit "u2", lit "a/b.png?sig=2")]

theorem c4_image_key_dedup_witness :
    keyOf (lit "a/b.png?sig=1") = lit "a/b.png"
    ∧ keyOf (lit "a/b.png?sig=2") = lit "a/b.png"
    ∧ (mapLookup (lit "u1") (imgFold env4 [] ms4).mapping
         = some (localRel (lit "a/b.png"))
       ∧ mapLookup (lit "u2") (imgFold env4 [] ms4).mapping
         = some (localRel (lit "a/b.png"))
       ∧ (imgFold env4 [] ms4).fetched.count (lit "a/b.png") = 1) :=
  ⟨by decide, by decide,
   c4_image_key_dedup env4 [] ms4
     (lit "u1") (lit "a/b.png?sig=1") (lit "u2") (lit "a/b.png?sig=2")
     (lit "a/b.png")
     (by decide) (by decide) (by decide) (by decide) (by decide)
     (by decide) (by decide) rfl⟩

/-- C5: a recognized-host URL whose key is not cached and whose fetch
fails (any of the soft-failure modes of `download_s3_image_via_lambda`)
is mapped to itself, and substituting a URL by itself with `str.replace`
leaves the document unchanged at every occurrence; the loop continues
over the remaining matches (it is a total function). -/
theorem c5_failed_fetch_keeps_url (env : Env) (imgs₀ : List Str)
    (ms : List (Str × Str)) (u t k : Str)
    (hm : (u, t) ∈ ms) (hk : keyOf t = k)
    (hcons : ∀ p ∈ ms, ∀ q ∈ ms, p.1 = q.1 → p.2 = q.2)
    (hnew : k ∉ imgs₀) (hf : env.fetch k = false) :
    mapLookup u (imgFold env imgs₀ ms).mapping = some u
    ∧ ∀ c : Str, pyReplace u u c = c := by
  refine ⟨?_, fun c => pyReplace_self u c⟩
  exact imgFoldLoop_fail env k hf ms ⟨[], imgs₀, []⟩ hnew hcons
    (fun p _ _ => Or.inl (by simp [mapLookup])) (u, t) hm hk

def env5 : Env :=
  { fetch := fun _ => false, unescape := id, jsonParse := fun _ => none,
    isoDate := fun _ => none, nfkc := id, now := [] }

def ms5 : List (Str × Str) := [(lit "u1", lit "a/b.png?sig=1")]

theorem c5_failed_fetch_keeps_url_witness :
    keyOf (lit "a/b.png?sig=1") = lit "a/b.png"
    ∧ (mapLookup (lit "u1") (imgFold env5 [] ms5).mapping = some (lit "u1")
       ∧ ∀ c : Str, pyReplace (lit "u1") (lit "u1") c = c) :=
  ⟨by decide,
   c5_failed_fetch_keeps_url env5 [] ms5
     (lit "u1") (lit "a/b.png?sig=1") (lit "a/b.png")
     (by decide) (by decide) (by decide) (by decide) rfl⟩

/- ==================== C6: document shape ==================== -/

/-- `"\n".join(lines) + "\n"` concatenates `line + "\n"` over the
lines. -/
theorem pjoin_append_sep (sep : Str) :
    ∀ (l : List Str), l ≠ [] →
      pjoin sep l ++ sep = (l.map fun x => x ++ sep).flatten := by
  intro l
  induction l with
  | nil => intro h; exact absurd rfl h
  | cons x rest ih =>
    intro _
    cases rest with
    | nil => simp [pjoin]
    | cons y ys =>
      have := ih (by simp)
      simp only [pjoin, List.map_cons, List.flatten_cons] at *
      rw [← this]
      simp [List.append_assoc]

/-- The document produced by `assembleDocument`, flattened: since the
`md_content` list always ends with an empty line, the join is best
described after appending one final newline. -/
theorem assembleDocument_flat (env : Env) (a : Article) (body : Str) :
    assembleDocument env a body ++ lit "\n"
      = lit "# " ++ a.title ++ lit "\n"
        ++ lit "\n"
        ++ lit "## Basic Information" ++ lit "\n"
        ++ (if a.id ≠ [] then lit "- **ID**: " ++ a.id ++ lit "\n" else [])
        ++ lit "- **Author**: " ++ format_authors a.authors ++ lit "\n"
        ++ lit "- **Last Edited**: " ++ format_date env a.last_edited
          ++ lit "\n"
        ++ lit "\n"
        ++ (if a.channels ≠ [] then
              lit "## Categories" ++ lit "\n"
                ++ lit "- **Channels**: " ++ pjoin (lit ", ") a.channels
                ++ lit "\n"
            else [])
        ++ (if a.tags ≠ [] then
              lit "- **Tags**: " ++ format_tags a.tags ++ lit "\n" else [])
        ++ (if a.countries ≠ [] then
              lit "- **Countries**: " ++ format_countries a.countries
                ++ lit "\n"
            else [])
        ++ lit "\n"
        ++ (if a.key_takeaways ≠ [] then
              lit "## Key Takeaways" ++ lit "\n"
                ++ clean_text a.key_takeaways ++ lit "\n" ++ lit "\n"
            else [])
        ++ (if pstrip body ≠ [] then
              lit "## Article Content" ++ lit "\n" ++ body ++ lit "\n"
                ++ lit "\n"
            else []) := by
  unfold assembleDocument
  rw [pjoin_append_sep (lit "\n") _ (by simp)]
  simp only [List.map_append, List.map_cons, List.map_nil,
    List.flatten_append, List.flatten_cons, List.flatten_nil,
    apply_ite (List.map fun x : Str => x ++ lit "\n"),
    apply_ite List.flatten, List.append_assoc, List.append_nil,
    List.nil_append]

/-- A neutral environment for concrete runs: every image fetch fails,
`html.unescape` and NFKC are the identity on the plain-ASCII inputs of
the examples, `json.loads` and the date parser reject the inputs of the
examples. -/
def envId : Env :=
  { fetch := fun _ => false, unescape := id, jsonParse := fun _ => none,
    isoDate := fun _ => none, nfkc := id, now := lit "2025-01-01 00:00:00" }

/-- An article with no channels but one tag. -/
def a6 : Article :=
  { id := lit "i", title := lit "T", authors := [], last_edited := [],
    tags := [lit "x"], countries := [], channels := [], key_takeaways := [],
    content := J.null }

/-- C6, counterexample.  The claim says the `## Categories` header is
present whenever any of channels, tags, or countries is non-empty; the
code emits the header only when `channels` is non-empty, so an article
with a tag but no channels gets a Tags line with no `## Categories`
header. -/
theorem c6_document_shape_counterexample :
    containsSub (generate_article_markdown envId a6 []).1
      (lit "- **Tags**: `x`") = true
    ∧ containsSub (generate_article_markdown envId a6 []).1
      (lit "## Categories") = false := by
  constructor
  · decide
  · decide

/-- C6, amended: the assembled document has the fixed shape `# {title}`,
blank line, `## Basic Information` block (ID line when the id is
non-empty, Author, Last-Edited), then a `## Categories` header present
exactly when `channels` is non-empty, with the Channels line under it,
then a Tags line whenever `tags` is non-empty and a Countries line
whenever `countries` is non-empty (with or without the header), a blank
line, an optional `## Key Takeaways` section, and an optional
`## Article Content` section containing the resolved body.  The
`md_content` list always ends with an empty line, so the equation
appends one final newline to both sides. -/
theorem c6_document_shape_amended (env : Env) (a : Article)
    (imgs : List Str) :
    (generate_article_markdown env a imgs).1 ++ lit "\n"
      = lit "# " ++ a.title ++ lit "\n"
        ++ lit "\n"
        ++ lit "## Basic Information" ++ lit "\n"
        ++ (if a.id ≠ [] then lit "- **ID**: " ++ a.id ++ lit "\n" else [])
        ++ lit "- **Author**: " ++ format_authors a.authors ++ lit "\n"
        ++ lit "- **Last Edited**: " ++ format_date env a.last_edited
          ++ lit "\n"
        ++ lit "\n"
        ++ (if a.channels ≠ [] then
              lit "## Categories" ++ lit "\n"
                ++ lit "- **Channels**: " ++ pjoin (lit ", ") a.channels
                ++ lit "\n"
            else [])
        ++ (if a.tags ≠ [] then
              lit "- **Tags**: " ++ format_tags a.tags ++ lit "\n" else [])
        ++ (if a.countries ≠ [] then
              lit "- **Countries**: " ++ format_countries a.countries
                ++ lit "\n"
            else [])
        ++ lit "\n"
        ++ (if a.key_takeaways ≠ [] then
              lit "## Key Takeaways" ++ lit "\n"
                ++ clean_text a.key_takeaways ++ lit "\n" ++ lit "\n"
            else [])
        ++ (if pstrip (resolvedBody env a imgs).1 ≠ [] then
              lit "## Article Content" ++ lit "\n"
                ++ (resolvedBody env a imgs).1 ++ lit "\n" ++ lit "\n"
            else []) :=
  assembleDocument_flat env a (resolvedBody env a imgs).1

theorem c6_document_shape_amended_witness :
    (generate_article_markdown envId a6 []).1 ++ lit "\n"
      = lit "# " ++ a6.title ++ lit "\n"
        ++ lit "\n"
        ++ lit "## Basic Information" ++ lit "\n"
        ++ (if a6.id ≠ [] then lit "- **ID**: " ++ a6.id ++ lit "\n" else [])
        ++ lit "- **Author**: " ++ format_authors a6.authors ++ lit "\n"
        ++ lit "- **Last Edited**: " ++ format_date envId a6.last_edited
          ++ lit "\n"
        ++ lit "\n"
        ++ (if a6.channels ≠ [] then
              lit "## Categories" ++ lit "\n"
                ++ lit "- **Channels**: " ++ pjoin (lit ", ") a6.channels
                ++ lit "\n"
            else [])
        ++ (if a6.tags ≠ [] then
              lit "- **Tags**: " ++ format_tags a6.tags ++ lit "\n" else [])
        ++ (if a6.countries ≠ [] then
              lit "- **Countries**: " ++ format_countries a6.countries
                ++ lit "\n"
            else [])
        ++ lit "\n"
        ++ (if a6.key_takeaways ≠ [] then
              lit "## Key Takeaways" ++ lit "\n"
                ++ clean_text a6.key_takeaways ++ lit "\n" ++ lit "\n"
            else [])
        ++ (if pstrip (resolvedBody envId a6 []).1 ≠ [] then
              lit "## Article Content" ++ lit "\n"
                ++ (resolvedBody envId a6 []).1 ++ lit "\n" ++ lit "\n"
            else []) :=
  c6_document_shape_amended envId a6 []

/- ============ SyncEngine and ChangeLog (lines 802-1049) ============ -/

/-- The filesystem state the conversion touches: the `.md` files of the
output directory in `os.listdir` order (name, content), the set of image
keys present under `images/`, and the content of `log.md`. -/
structure FS where
  files : List (Str × Str)
  images : List Str
  log : Str

/-- `open(path, 'w')`: overwrite the file in place if the name exists,
otherwise create it (appearing at the end of the listing). -/
def writeFile (files : List (Str × Str)) (name content : Str) :
    List (Str × Str) :=
  if (files.map Prod.fst).contains name then
    files.map fun p => if p.1 = name then (name, content) else p
  else files ++ [(name, content)]

/-- The identity marker line prefix (`- **ID**: `). -/
def idMarker : Str := lit "- **ID**: "

/-- The per-file ID scan of `get_existing_article_ids` /
`get_existing_article_content` (lines 817-824, 846-853): the first line
starting with the marker, its marker text removed and stripped; the loop
breaks after the first such line. -/
def extractId (c : Str) : Option Str :=
  match (splitOnChar '\n' c).find? (fun l => idMarker.isPrefixOf l) with
  | some l => some (pstrip (pyReplace idMarker [] l))
  | none => none

/-- `get_existing_article_ids` (lines 802-826). -/
def get_existing_article_ids (files : List (Str × Str)) : List Str :=
  files.filterMap fun p => extractId p.2

/-- `get_existing_article_content` (lines 828-856): the first file whose
first ID line carries the wanted id. -/
def get_existing_article_content (files : List (Str × Str)) (id : Str) :
    Option Str :=
  if id = [] then none
  else
    files.findSome? fun p =>
      match extractId p.2 with
      | some i => if i = id then some p.2 else none
      | none => none

/-- `is_new = article_id not in existing_ids if article_id else True`
(line 890). -/
def isNewArticle (existing : List Str) (a : Article) : Bool :=
  if a.id ≠ [] then !(existing.contains a.id) else true

/-- `f"{date_prefix}-{slug}.md"` with the `article-{i}` fallback
(lines 893-896). -/
def articleFileName (env : Env) (i : Nat) (a : Article) : Str :=
  let slug := slugify env a.title
  format_date_for_filename env a.last_edited ++ lit "-"
    ++ (if slug = [] then lit "article-" ++ natStr i else slug) ++ lit ".md"

inductive SyncClass where
  | new
  | updated
  | unchanged
deriving DecidableEq, BEq, Repr

/-- The per-article step of the main loop (lines 884-920): classify the
article and write its file when it is new or its content changed. -/
def processArticle (env : Env) (existing : List Str) (fs : FS) (i : Nat)
    (a : Article) : SyncClass × FS :=
  let fname := articleFileName env i a
  let g := generate_article_markdown env a fs.images
  let fs1 : FS := { fs with images := g.2.1 }
  if isNewArticle existing a then
    (SyncClass.new, { fs1 with files := writeFile fs1.files fname g.1 })
  else
    match get_existing_article_content fs1.files a.id with
    | some c =>
      if c = g.1 then (SyncClass.unchanged, fs1)
      else (SyncClass.updated, { fs1 with files := writeFile fs1.files fname g.1 })
    | none =>
      (SyncClass.updated, { fs1 with files := writeFile fs1.files fname g.1 })

def runLoop (env : Env) (existing : List Str) :
    List (Nat × Article) → FS → List SyncClass × FS
  | [], fs => ([], fs)
  | (i, a) :: rest, fs =>
    let r := processArticle env existing fs i a
    let rr := runLoop env existing rest r.2
    (r.1 :: rr.1, rr.2)

/-- `", ".join(authors) if authors else "Unknown author"` (lines 961,
989). -/
def authorLine (authors : List Str) : Str :=
  if authors ≠ [] then pjoin (lit ", ") authors else lit "Unknown author"

/-- One `🆕` log line (line 962). -/
def newArticleLine (env : Env) (i : Nat) (a : Article) : Str :=
  lit "- [" ++ a.title ++ lit "](" ++ articleFileName env i a ++ lit ") — "
    ++ authorLine a.authors ++ lit " (" ++ format_date env a.last_edited
    ++ lit ") 🆕\n"

/-- One `🔄` log line (line 990). -/
def updArticleLine (env : Env) (i : Nat) (a : Article) : Str :=
  lit "- [" ++ a.title ++ lit "](" ++ articleFileName env i a ++ lit ") — "
    ++ authorLine a.authors ++ lit " (" ++ format_date env a.last_edited
    ++ lit ") 🔄\n"

/-- The `## New Articles` item loop (lines 946-962). -/
def newSectionLines (env : Env) (existing : List Str)
    (ias : List (Nat × Article)) : List Str :=
  ias.filterMap fun p =>
    if isNewArticle existing p.2 then some (newArticleLine env p.1 p.2)
    else none

/-- The `## Updated Articles` item loop (lines 968-990): for each
pre-existing article the stored document is compared against a freshly
regenerated one (which may touch the image cache, threaded here). -/
def updSectionLines (env : Env) (existing : List Str)
    (files : List (Str × Str)) :
    List (Nat × Article) → List Str → List Str × List Str
  | [], imgs => ([], imgs)
  | (i, a) :: rest, imgs =>
    if isNewArticle existing a then
      updSectionLines env existing files rest imgs
    else
      let ec := get_existing_article_content files a.id
      let g := generate_article_markdown env a imgs
      let rr := updSectionLines env existing files rest g.2.1
      (if ec ≠ some g.1 then updArticleLine env i a :: rr.1 else rr.1, rr.2)

/-- `convert_json_to_markdown` (lines 858-1037): the main loop over the
articles (enumerated from 1), followed by the log update in which the new
dated entry (totals, then the `## New Articles` and `## Updated
Articles` sections, each present only when its count is positive) is
written above the previous content of `log.md`.  Returns the per-article
classification list and the final filesystem. -/
def convert_json_to_markdown (env : Env) (articles : List Article)
    (fs : FS) : List SyncClass × FS :=
  let existing := get_existing_article_ids fs.files
  let ias := List.enumFrom 1 articles
  let lr := runLoop env existing ias fs
  let classes := lr.1
  let fs1 := lr.2
  let newc := classes.count SyncClass.new
  let updc := classes.count SyncClass.updated
  let entry : List Str :=
    [lit "## Log Entry - " ++ env.now ++ lit "\n",
     lit "> Total articles: " ++ natStr articles.length ++ lit "\n",
     lit "> New articles: " ++ natStr newc ++ lit "\n",
     lit "> Updated articles: " ++ natStr updc ++ lit "\n",
     lit "\n"]
  let newSec : List Str :=
    if newc > 0 then
      lit "## New Articles\n" :: (newSectionLines env existing ias ++ [lit "\n"])
    else []
  let upd : List Str × List Str :=
    if updc > 0 then
      let u := updSectionLines env existing fs1.files ias fs1.images
      (lit "## Updated Articles\n" :: (u.1 ++ [lit "\n"]), u.2)
    else ([], fs1.images)
  let sections : List Str :=
    if newc > 0 ∨ updc > 0 then newSec ++ upd.1 else []
  (classes,
   { files := fs1.files, images := upd.2,
     log := (entry ++ sections).flatten ++ fs.log })

theorem mapLookup_cons_self (u v : Str) (rest : List (Str × Str)) :
    mapLookup u ((u, v) :: rest) = some v := by
  simp only [mapLookup]
  split
  · rfl
  · rename_i hne
    exact absurd trivial hne

theorem mapLookup_cons_ne {pk u : Str} (h : ¬ pk = u) (pv : Str)
    (rest : List (Str × Str)) :
    mapLookup u ((pk, pv) :: rest) = mapLookup u rest := by
  simp only [mapLookup]
  split
  · rename_i he
    exact absurd he h
  · rfl

theorem mapLookup_map_overwrite (name content : Str) :
    ∀ (files : List (Str × Str)), mapLookup name files ≠ none →
      mapLookup name
        (files.map fun p => if p.1 = name then (name, content) else p)
        = some content := by
  intro files
  induction files with
  | nil => intro h; simp [mapLookup] at h
  | cons p rest ih =>
    obtain ⟨pk, pv⟩ := p
    intro h
    simp only [List.map_cons]
    by_cases hk : pk = name
    · subst hk
      rw [show (if (pk, pv).1 = pk then (pk, content) else (pk, pv))
            = (pk, content) from if_pos rfl]
      exact mapLookup_cons_self _ _ _
    · rw [show (if (pk, pv).1 = name then (name, content) else (pk, pv))
            = (pk, pv) from if_neg hk]
      rw [mapLookup_cons_ne hk]
      apply ih
      rw [mapLookup_cons_ne hk] at h
      exact h

theorem mapLookup_writeFile (files : List (Str × Str)) (name content : Str) :
    mapLookup name (writeFile files name content) = some content := by
  unfold writeFile
  by_cases h : (files.map Prod.fst).contains name = true
  · rw [if_pos h]
    exact mapLookup_map_overwrite name content files ((containsFst_iff _ _).mp h)
  · rw [if_neg h]
    have h' : mapLookup name files = none := by
      by_cases hn : mapLookup name files = none
      · exact hn
      · exact absurd ((containsFst_iff files name).mpr hn) h
    exact mapLookup_append_single_self h'

/-- C9: an article whose id is missing or empty is always classified as
new (`is_new` defaults to `True` when the id is falsy), so its file is
written on every run, even when a byte-identical document already exists
on disk. -/
theorem c9_empty_id_always_new (env : Env) (existing : List Str) (fs : FS)
    (i : Nat) (a : Article) (hid : a.id = []) :
    (processArticle env existing fs i a).1 = SyncClass.new
    ∧ mapLookup (articleFileName env i a)
        (processArticle env existing fs i a).2.files
        = some (generate_article_markdown env a fs.images).1 := by
  have hnew : isNewArticle existing a = true := by
    unfold isNewArticle
    rw [hid]
    simp
  unfold processArticle
  rw [if_pos hnew]
  exact ⟨rfl, mapLookup_writeFile _ _ _⟩

def a9 : Article :=
  { id := [], title := lit "T", authors := [], last_edited := [],
    tags := [], countries := [], channels := [], key_takeaways := [],
    content := J.null }

theorem c9_empty_id_always_new_witness :
    a9.id = []
    ∧ ((processArticle envId [] ⟨[], [], []⟩ 1 a9).1 = SyncClass.new
       ∧ mapLookup (articleFileName envId 1 a9)
           (processArticle envId [] ⟨[], [], []⟩ 1 a9).2.files
           = some (generate_article_markdown envId a9 []).1) :=
  ⟨rfl, c9_empty_id_always_new envId [] ⟨[], [], []⟩ 1 a9 rfl⟩

/- ==================== C8: the change log ==================== -/

/-- C8: after every run, `log.md` is the new dated entry — the totals
block (`## Log Entry`, total / new / updated counts), then the itemized
new/updated article-link sections — followed by the entire previous
content of `log.md`: the old log is a verbatim suffix of the new one, so
prior entries are never rewritten, reordered, or deduplicated. -/
theorem c8_log_prepends (env : Env) (articles : List Article) (fs : FS) :
    (∃ sections : Str,
      (convert_json_to_markdown env articles fs).2.log
        = lit "## Log Entry - " ++ env.now ++ lit "\n"
          ++ (lit "> Total articles: " ++ natStr articles.length ++ lit "\n"
          ++ (lit "> New articles: "
              ++ natStr ((convert_json_to_markdown env articles fs).1.count
                    SyncClass.new) ++ lit "\n"
          ++ (lit "> Updated articles: "
              ++ natStr ((convert_json_to_markdown env articles fs).1.count
                    SyncClass.updated) ++ lit "\n"
          ++ (lit "\n" ++ (sections ++ fs.log))))))
    ∧ List.IsSuffix fs.log
        (convert_json_to_markdown env articles fs).2.log := by
  constructor
  · refine ⟨((if ((runLoop env (get_existing_article_ids fs.files)
          (List.enumFrom 1 articles) fs).1.count SyncClass.new) > 0 then
        lit "## New Articles\n" ::
          (newSectionLines env (get_existing_article_ids fs.files)
            (List.enumFrom 1 articles) ++ [lit "\n"])
      else []) ++
      (if ((runLoop env (get_existing_article_ids fs.files)
          (List.enumFrom 1 articles) fs).1.count SyncClass.updated) > 0 then
        lit "## Updated Articles\n" ::
          ((updSectionLines env (get_existing_article_ids fs.files)
              (runLoop env (get_existing_article_ids fs.files)
                (List.enumFrom 1 articles) fs).2.files
              (List.enumFrom 1 articles)
              (runLoop env (get_existing_article_ids fs.files)
                (List.enumFrom 1 articles) fs).2.images).1 ++ [lit "\n"])
      else [])).flatten, ?_⟩
    show (convert_json_to_markdown env articles fs).2.log = _
    simp only [convert_json_to_markdown,
      apply_ite (Prod.fst : List Str × List Str → List Str)]
    split
    · rename_i hcond
      rw [List.flatten_append]
      simp only [List.flatten_cons, List.flatten_nil, List.append_assoc,
        List.append_nil]
    · rename_i hcond
      push_neg at hcond
      rw [List.flatten_append]
      simp only [List.flatten_cons, List.flatten_nil, List.append_assoc,
        List.append_nil]
      rw [if_neg (by omega : ¬ _ > 0), if_neg (by omega : ¬ _ > 0)]
      simp
  · exact ⟨_, rfl⟩

/- ==================== C1: idempotence of the sync engine ==================== -/

/- lemmas about writeFile -/

theorem writeFile_names_nodup {files : List (Str × Str)} {n c : Str}
    (h : (files.map Prod.fst).Nodup) :
    ((writeFile files n c).map Prod.fst).Nodup := by
  unfold writeFile
  split
  · have : (files.map fun p => if p.1 = n then (n, c) else p).map Prod.fst
        = files.map Prod.fst := by
      rw [List.map_map]
      apply List.map_congr_left
      intro p _
      by_cases hp : p.1 = n
      · simp [hp]
      · simp [hp]
    rw [this]
    exact h
  · rename_i hnc
    rw [List.map_append]
    simp only [List.map_cons, List.map_nil]
    rw [List.nodup_append]
    refine ⟨h, by simp, ?_⟩
    intro x hx
    simp only [List.mem_singleton]
    intro he
    subst he
    exact hnc (List.elem_iff.mpr hx)

theorem writeFile_mem {files : List (Str × Str)} {n c : Str} {f : Str × Str}
    (h : f ∈ writeFile files n c) : f ∈ files ∨ f = (n, c) := by
  unfold writeFile at h
  split at h
  · obtain ⟨p, hp, hpe⟩ := List.mem_map.mp h
    by_cases hn : p.1 = n
    · right
      rw [if_pos hn] at hpe
      exact hpe.symm
    · left
      rw [if_neg hn] at hpe
      exact hpe ▸ hp
  · rcases List.mem_append.mp h with h' | h'
    · exact Or.inl h'
    · exact Or.inr (List.mem_singleton.mp h')

theorem writeFile_mem_self (files : List (Str × Str)) (n c : Str) :
    (n, c) ∈ writeFile files n c := by
  unfold writeFile
  split
  · rename_i hc
    obtain ⟨x, hx, hxe⟩ := List.mem_map.mp (List.elem_iff.mp hc)
    refine List.mem_map.mpr ⟨x, hx, ?_⟩
    rw [if_pos hxe]
  · exact List.mem_append_right _ (List.mem_singleton.mpr rfl)

theorem writeFile_mem_other {files : List (Str × Str)} {n c : Str}
    {f : Str × Str} (hf : f ∈ files) (hne : f.1 ≠ n) :
    f ∈ writeFile files n c := by
  unfold writeFile
  split
  · refine List.mem_map.mpr ⟨f, hf, ?_⟩
    rw [if_neg hne]
  · exact List.mem_append_left _ hf

theorem nodup_names_unique {files : List (Str × Str)} {f₁ f₂ : Str × Str}
    (h : (files.map Prod.fst).Nodup) (h₁ : f₁ ∈ files) (h₂ : f₂ ∈ files)
    (he : f₁.1 = f₂.1) : f₁ = f₂ := by
  induction files with
  | nil => simp at h₁
  | cons p rest ih =>
    simp only [List.map_cons, List.nodup_cons] at h
    rcases List.mem_cons.mp h₁ with e₁ | m₁ <;>
      rcases List.mem_cons.mp h₂ with e₂ | m₂
    · rw [e₁, e₂]
    · exfalso
      apply h.1
      refine List.mem_map.mpr ⟨f₂, m₂, ?_⟩
      rw [← he, e₁]
    · exfalso
      apply h.1
      refine List.mem_map.mpr ⟨f₁, m₁, ?_⟩
      rw [he, e₂]
    · exact ih h.2 m₁ m₂

theorem get_existing_unique {files : List (Str × Str)} {f₀ : Str × Str}
    {id : Str} (hid : id ≠ [])
    (hmem : f₀ ∈ files) (hext : extractId f₀.2 = some id)
    (huniq : ∀ f ∈ files, extractId f.2 = some id → f = f₀) :
    get_existing_article_content files id = some f₀.2 := by
  unfold get_existing_article_content
  rw [if_neg hid]
  induction files with
  | nil => simp at hmem
  | cons p rest ih =>
    rw [List.findSome?_cons]
    rcases List.mem_cons.mp hmem with he | hm
    · subst he
      rw [hext]
      simp
    · cases hp : extractId p.2 with
      | none => simp
                exact ih hm fun f hf => huniq f (List.mem_cons_of_mem _ hf)
      | some i =>
        by_cases hi : i = id
        · subst hi
          have := huniq p (by simp) hp
          rw [this]
          simp [hext ▸ hp]
        · simp only [if_neg hi]
          exact ih hm fun f hf => huniq f (List.mem_cons_of_mem _ hf)

theorem mem_get_existing_article_ids {files : List (Str × Str)} {id : Str} :
    id ∈ get_existing_article_ids files
      ↔ ∃ f ∈ files, extractId f.2 = some id := by
  unfold get_existing_article_ids
  rw [List.mem_filterMap]

/- lemmas about how the image cache evolves: a run only ever adds keys,
and every key it adds was fetched successfully -/

/-- `j` extends `i` and every added key had a successful fetch. -/
def ExtOk (env : Env) (i j : List Str) : Prop :=
  (∀ k, k ∈ i → k ∈ j) ∧ (∀ k, k ∈ j → k ∉ i → env.fetch k = true)

theorem extOk_refl (env : Env) (i : List Str) : ExtOk env i i :=
  ⟨fun _ h => h, fun k hk hn => absurd hk hn⟩

theorem extOk_trans {env : Env} {i j l : List Str}
    (h₁ : ExtOk env i j) (h₂ : ExtOk env j l) : ExtOk env i l := by
  refine ⟨fun k hk => h₂.1 k (h₁.1 k hk), fun k hk hn => ?_⟩
  by_cases hj : k ∈ j
  · exact h₁.2 k hj hn
  · exact h₂.2 k hk hj

theorem imgStep_images_extOk (env : Env) (st : ImgScan) (m : Str × Str) :
    ExtOk env st.images (imgStep env st m).images := by
  by_cases h1 : mapLookup m.1 st.mapping = none
  · by_cases h2 : keyOf m.2 ∈ st.images
    · rw [imgStep_reuse h1 h2]
      exact extOk_refl env st.images
    · cases h3 : env.fetch (keyOf m.2) with
      | true =>
        rw [imgStep_fetch_ok h1 h2 h3]
        refine ⟨fun k hk => List.mem_cons_of_mem _ hk, fun k hk hn => ?_⟩
        rcases List.mem_cons.mp hk with he | hm
        · rw [he]; exact h3
        · exact absurd hm hn
      | false =>
        rw [imgStep_fetch_fail h1 h2 h3]
        exact extOk_refl env st.images
  · rw [imgStep_skip h1]
    exact extOk_refl env st.images

theorem imgFoldLoop_images_extOk (env : Env) :
    ∀ (ms : List (Str × Str)) (st : ImgScan),
    ExtOk env st.images (ms.foldl (imgStep env) st).images := by
  intro ms
  induction ms with
  | nil => intro st; exact extOk_refl env st.images
  | cons m rest ih =>
    intro st
    rw [List.foldl_cons]
    exact extOk_trans (imgStep_images_extOk env st m) (ih (imgStep env st m))

/-- Processing the same match list from a compatibly extended cache
produces the same URL mapping (hence the same document) and
compatibly extended caches. -/
theorem imgFoldLoop_stable (env : Env) :
    ∀ (ms : List (Str × Str)) (st₁ st₂ : ImgScan),
    st₁.mapping = st₂.mapping → ExtOk env st₁.images st₂.images →
    (ms.foldl (imgStep env) st₁).mapping = (ms.foldl (imgStep env) st₂).mapping
    ∧ ExtOk env (ms.foldl (imgStep env) st₁).images
        (ms.foldl (imgStep env) st₂).images := by
  intro ms
  induction ms with
  | nil => intro st₁ st₂ hm he; exact ⟨hm, he⟩
  | cons m rest ih =>
    intro st₁ st₂ hm he
    rw [List.foldl_cons, List.foldl_cons]
    apply ih
    all_goals
      by_cases h1 : mapLookup m.1 st₁.mapping = none
    case neg =>
      rw [imgStep_skip h1, imgStep_skip (hm ▸ h1)]
      exact hm
    case pos =>
      by_cases h2 : keyOf m.2 ∈ st₁.images
      · rw [imgStep_reuse h1 h2, imgStep_reuse (hm ▸ h1) (he.1 _ h2)]
        simp [hm]
      · by_cases h2' : keyOf m.2 ∈ st₂.images
        · have h3 : env.fetch (keyOf m.2) = true := he.2 _ h2' h2
          rw [imgStep_fetch_ok h1 h2 h3, imgStep_reuse (hm ▸ h1) h2']
          simp [hm]
        · cases h3 : env.fetch (keyOf m.2) with
          | true =>
            rw [imgStep_fetch_ok h1 h2 h3, imgStep_fetch_ok (hm ▸ h1) h2' h3]
            simp [hm]
          | false =>
            rw [imgStep_fetch_fail h1 h2 h3, imgStep_fetch_fail (hm ▸ h1) h2' h3]
            simp [hm]
    case neg =>
      rw [imgStep_skip h1, imgStep_skip (hm ▸ h1)]
      exact he
    case pos =>
      by_cases h2 : keyOf m.2 ∈ st₁.images
      · rw [imgStep_reuse h1 h2, imgStep_reuse (hm ▸ h1) (he.1 _ h2)]
        exact he
      · by_cases h2' : keyOf m.2 ∈ st₂.images
        · have h3 : env.fetch (keyOf m.2) = true := he.2 _ h2' h2
          rw [imgStep_fetch_ok h1 h2 h3, imgStep_reuse (hm ▸ h1) h2']
          refine ⟨fun k hk => ?_, fun k hk hn => ?_⟩
          · rcases List.mem_cons.mp hk with hke | hkm
            · rw [hke]; exact h2'
            · exact he.1 _ hkm
          · have hn1 : k ∉ st₁.images := fun hc => hn (List.mem_cons_of_mem _ hc)
            exact he.2 _ hk hn1
        · cases h3 : env.fetch (keyOf m.2) with
          | true =>
            rw [imgStep_fetch_ok h1 h2 h3, imgStep_fetch_ok (hm ▸ h1) h2' h3]
            refine ⟨fun k hk => ?_, fun k hk hn => ?_⟩
            · rcases List.mem_cons.mp hk with hke | hkm
              · rw [hke]; exact List.mem_cons_self _ _
              · exact List.mem_cons_of_mem _ (he.1 _ hkm)
            · rcases List.mem_cons.mp hk with hke | hkm
              · exact absurd (hke ▸ List.mem_cons_self (keyOf m.2) st₁.images)
                  (hke ▸ hn)
              · exact he.2 _ hkm (fun hc => hn (List.mem_cons_of_mem _ hc))
          | false =>
            rw [imgStep_fetch_fail h1 h2 h3, imgStep_fetch_fail (hm ▸ h1) h2' h3]
            exact he

/-- After the match loop has run once, every match in the list is
accounted for: its key is cached, or its fetch fails, or an earlier
match with the same URL was already processed (`seen`). -/
def coveredMs (env : Env) (imgs : List Str) :
    List Str → List (Str × Str) → Prop
  | _, [] => True
  | seen, m :: rest =>
    (keyOf m.2 ∈ imgs ∨ env.fetch (keyOf m.2) = false ∨ m.1 ∈ seen)
    ∧ coveredMs env imgs (m.1 :: seen) rest


/-- Any URL present in the mapping after one step was either already
mapped or is the URL of the processed match. -/
theorem imgStep_mapLookup_src (env : Env) (st : ImgScan) (m : Str × Str)
    (u : Str) (hu : mapLookup u (imgStep env st m).mapping ≠ none) :
    mapLookup u st.mapping ≠ none ∨ u = m.1 := by
  by_cases hst : mapLookup u st.mapping = none
  · right
    by_cases hum : u = m.1
    · exact hum
    exfalso
    apply hu
    have happ : ∀ v : Str, mapLookup u (st.mapping ++ [(m.1, v)]) = none := by
      intro v
      rw [mapLookup_append_none hst, mapLookup_cons_ne (fun he => hum he.symm)]
      rfl
    by_cases h1 : mapLookup m.1 st.mapping = none
    · by_cases h2 : keyOf m.2 ∈ st.images
      · rw [imgStep_reuse h1 h2]
        exact happ _
      · cases h3 : env.fetch (keyOf m.2) with
        | true =>
          rw [imgStep_fetch_ok h1 h2 h3]
          exact happ _
        | false =>
          rw [imgStep_fetch_fail h1 h2 h3]
          exact happ _
    · rw [imgStep_skip h1]
      exact hst
  · left
    exact hst

theorem imgFoldLoop_covers (env : Env) :
    ∀ (ms : List (Str × Str)) (st : ImgScan) (seen : List Str),
    (∀ u, mapLookup u st.mapping ≠ none → u ∈ seen) →
    coveredMs env (ms.foldl (imgStep env) st).images seen ms := by
  intro ms
  induction ms with
  | nil => intro st seen hseen; trivial
  | cons m rest ih =>
    intro st seen hseen
    rw [List.foldl_cons]
    have hmono : ∀ k, k ∈ (imgStep env st m).images →
        k ∈ (rest.foldl (imgStep env) (imgStep env st m)).images :=
      fun k hk => (imgFoldLoop_images_extOk env rest (imgStep env st m)).1 k hk
    constructor
    · by_cases h1 : mapLookup m.1 st.mapping = none
      · by_cases h2 : keyOf m.2 ∈ st.images
        · left
          apply hmono
          rw [imgStep_reuse h1 h2]
          exact h2
        · cases h3 : env.fetch (keyOf m.2) with
          | true =>
            left
            apply hmono
            rw [imgStep_fetch_ok h1 h2 h3]
            exact List.mem_cons_self _ _
          | false => right; left; rfl
      · right; right; exact hseen m.1 h1
    · apply ih
      intro u hu
      rcases imgStep_mapLookup_src env st m u hu with hold | hnew
      · exact List.mem_cons_of_mem _ (hseen u hold)
      · exact hnew ▸ List.mem_cons_self _ _

/-- If every match is already accounted for, the loop adds no images. -/
theorem imgFoldLoop_no_growth (env : Env) :
    ∀ (ms : List (Str × Str)) (st : ImgScan) (seen : List Str),
    coveredMs env st.images seen ms →
    (∀ u, u ∈ seen → mapLookup u st.mapping ≠ none) →
    (ms.foldl (imgStep env) st).images = st.images := by
  intro ms
  induction ms with
  | nil => intro st seen _ _; rfl
  | cons m rest ih =>
    intro st seen hc hseen
    rw [List.foldl_cons]
    have hlk : ∀ v : Str, mapLookup m.1 (st.mapping ++ [(m.1, v)]) ≠ none := by
      intro v
      by_cases h1 : mapLookup m.1 st.mapping = none
      · rw [mapLookup_append_none h1, mapLookup_cons_self]
        simp
      · rw [mapLookup_append_isSome h1]
        exact h1
    have hstep : (imgStep env st m).images = st.images
        ∧ mapLookup m.1 (imgStep env st m).mapping ≠ none
        ∧ (∀ u, mapLookup u st.mapping ≠ none →
             mapLookup u (imgStep env st m).mapping ≠ none) := by
      by_cases h1 : mapLookup m.1 st.mapping = none
      · by_cases h2 : keyOf m.2 ∈ st.images
        · rw [imgStep_reuse h1 h2]
          refine ⟨rfl, hlk _, fun u hu => ?_⟩
          simp only
          rw [mapLookup_append_isSome hu]
          exact hu
        · have h3 : env.fetch (keyOf m.2) = false := by
            rcases hc.1 with hk | hf | hs
            · exact absurd hk h2
            · exact hf
            · exact absurd (hseen m.1 hs) (fun hne => hne h1)
          rw [imgStep_fetch_fail h1 h2 h3]
          refine ⟨rfl, hlk _, fun u hu => ?_⟩
          simp only
          rw [mapLookup_append_isSome hu]
          exact hu
      · rw [imgStep_skip h1]
        exact ⟨rfl, h1, fun u hu => hu⟩
    have hrec := ih (imgStep env st m) (m.1 :: seen)
      (by rw [hstep.1]; exact hc.2)
      (by
        intro u hu
        rcases List.mem_cons.mp hu with he | hm'
        · exact he ▸ hstep.2.1
        · exact hstep.2.2 u (hseen u hm'))
    rw [hrec, hstep.1]

theorem coveredMs_mono {env : Env} {i j : List Str}
    (hsub : ∀ k, k ∈ i → k ∈ j) :
    ∀ (ms : List (Str × Str)) (seen : List Str),
    coveredMs env i seen ms → coveredMs env j seen ms := by
  intro ms
  induction ms with
  | nil => intro seen h; trivial
  | cons m rest ih =>
    intro seen h
    refine ⟨?_, ih _ h.2⟩
    rcases h.1 with hk | hf | hs
    · exact Or.inl (hsub _ hk)
    · exact Or.inr (Or.inl hf)
    · exact Or.inr (Or.inr hs)

/-- Rendering an article only grows the image cache, adding only
successfully fetched keys. -/
theorem resolvedBody_images_extOk (env : Env) (a : Article)
    (imgs : List Str) : ExtOk env imgs (resolvedBody env a imgs).2.1 := by
  simp only [resolvedBody]
  by_cases hp : parse_content env a.content ≠ []
  · rw [if_pos hp]
    exact imgFoldLoop_images_extOk env _ ⟨[], imgs, []⟩
  · rw [if_neg hp]
    exact extOk_refl env imgs

/-- The rendered document is unchanged, and the caches stay compatibly
extended, when the starting cache is compatibly extended. -/
theorem resolvedBody_stable (env : Env) (a : Article) {i j : List Str}
    (h : ExtOk env i j) :
    (resolvedBody env a i).1 = (resolvedBody env a j).1
    ∧ ExtOk env (resolvedBody env a i).2.1 (resolvedBody env a j).2.1 := by
  simp only [resolvedBody]
  by_cases hp : parse_content env a.content ≠ []
  · rw [if_pos hp, if_pos hp]
    have hst := imgFoldLoop_stable env
      (findS3Urls (env.unescape (parse_content env a.content))
        ++ findImgS3Urls (env.unescape (parse_content env a.content)))
      ⟨[], i, []⟩ ⟨[], j, []⟩ rfl h
    unfold imgFold
    refine ⟨?_, hst.2⟩
    rw [hst.1]
  · rw [if_neg hp, if_neg hp]
    exact ⟨rfl, h⟩

/-- Once an article's matches have been processed from cache `i`, any
compatibly larger cache `j` is a fixpoint: reprocessing adds nothing. -/
theorem resolvedBody_images_fix (env : Env) (a : Article) {i j : List Str}
    (hsub : ∀ k, k ∈ (resolvedBody env a i).2.1 → k ∈ j) :
    (resolvedBody env a j).2.1 = j := by
  simp only [resolvedBody]
  by_cases hp : parse_content env a.content ≠ []
  · rw [if_pos hp]
    have hcov := imgFoldLoop_covers env
      (findS3Urls (env.unescape (parse_content env a.content))
        ++ findImgS3Urls (env.unescape (parse_content env a.content)))
      ⟨[], i, []⟩ []
      (fun u hu => absurd rfl hu)
    have hsub' : ∀ k,
        k ∈ ((findS3Urls (env.unescape (parse_content env a.content))
          ++ findImgS3Urls (env.unescape (parse_content env a.content))).foldl
            (imgStep env) ⟨[], i, []⟩).images → k ∈ j := by
      intro k hk
      apply hsub
      simp only [resolvedBody]
      rw [if_pos hp]
      exact hk
    exact imgFoldLoop_no_growth env _ ⟨[], j, []⟩ []
      (coveredMs_mono hsub' _ _ hcov) (fun u hu => absurd hu (List.not_mem_nil u))
  · rw [if_neg hp]

theorem generate_stable (env : Env) (a : Article) {i j : List Str}
    (h : ExtOk env i j) :
    (generate_article_markdown env a i).1
      = (generate_article_markdown env a j).1 := by
  unfold generate_article_markdown
  exact congrArg (assembleDocument env a) (resolvedBody_stable env a h).1

theorem updSectionLines_images_extOk (env : Env) (existing : List Str)
    (files : List (Str × Str)) :
    ∀ (ias : List (Nat × Article)) (imgs : List Str),
    ExtOk env imgs (updSectionLines env existing files ias imgs).2 := by
  intro ias
  induction ias with
  | nil => intro imgs; exact extOk_refl env imgs
  | cons p rest ih =>
    obtain ⟨i, a⟩ := p
    intro imgs
    simp only [updSectionLines]
    split
    · exact ih imgs
    · exact extOk_trans (resolvedBody_images_extOk env a imgs) (ih _)

theorem processArticle_images_extOk (env : Env) (existing : List Str)
    (fs : FS) (i : Nat) (a : Article) :
    ExtOk env fs.images (processArticle env existing fs i a).2.images := by
  simp only [processArticle]
  split
  · exact resolvedBody_images_extOk env a fs.images
  · split
    · split
      · exact resolvedBody_images_extOk env a fs.images
      · exact resolvedBody_images_extOk env a fs.images
    · exact resolvedBody_images_extOk env a fs.images

theorem runLoop_images_extOk (env : Env) (existing : List Str) :
    ∀ (ias : List (Nat × Article)) (fs : FS),
    ExtOk env fs.images (runLoop env existing ias fs).2.images := by
  intro ias
  induction ias with
  | nil => intro fs; exact extOk_refl env fs.images
  | cons p rest ih =>
    obtain ⟨i, a⟩ := p
    intro fs
    simp only [runLoop]
    exact extOk_trans (processArticle_images_extOk env existing fs i a) (ih _)

/- round trip: the ID written by assembleDocument is read back verbatim
by the ID-line scan -/

theorem pyReplace_eat {old : Str} (new rest : Str) (h : old ≠ []) :
    pyReplace old new (old ++ rest) = new ++ pyReplace old new rest := by
  cases ho : old with
  | nil => exact absurd ho h
  | cons o os =>
    rw [← ho, show old ++ rest = old.head h :: (old.tail ++ rest) by
      cases old with
      | nil => exact absurd rfl h
      | cons x xs => rfl]
    rw [pyReplace]
    rw [dif_pos ⟨h, (List.isPrefixOf_iff_prefix).mpr
      ⟨rest, by cases old with
               | nil => exact absurd rfl h
               | cons x xs => simp⟩⟩]
    congr 1
    have : (old.head h :: (old.tail ++ rest)).drop old.length = rest := by
      have hh : old.head h :: (old.tail ++ rest) = old ++ rest := by
        cases old with
        | nil => exact absurd rfl h
        | cons x xs => rfl
      rw [hh]
      exact List.drop_left old rest
    rw [this]

theorem pyReplace_no_occ {old : Str} (new : Str) :
    ∀ s : Str, containsSub s old = false → pyReplace old new s = s := by
  intro s
  induction s with
  | nil => intro h; rw [pyReplace]
  | cons c cs ih =>
    intro h
    simp only [containsSub, Bool.or_eq_false_iff] at h
    rw [pyReplace]
    rw [dif_neg (fun hc => by rw [h.1] at hc; exact Bool.false_ne_true hc.2)]
    rw [ih h.2]

theorem pjoin_cons_ne (sep x : Str) {l : List Str} (h : l ≠ []) :
    pjoin sep (x :: l) = x ++ sep ++ pjoin sep l := by
  cases l with
  | nil => exact absurd rfl h
  | cons b bs => rfl

theorem splitOnChar_append (sep : Char) (x y : Str) (hx : sep ∉ x) :
    splitOnChar sep (x ++ sep :: y) = x :: splitOnChar sep y := by
  induction x with
  | nil =>
    rw [List.nil_append, splitOnChar, if_pos rfl]
  | cons c cs ih =>
    have hc : ¬ c = sep := fun he => hx (he ▸ List.mem_cons_self c cs)
    have hcs : sep ∉ cs := fun hm => hx (List.mem_cons_of_mem c hm)
    rw [List.cons_append, splitOnChar, if_neg hc, ih hcs]

theorem splitOnChar_pjoin_cons (x : Str) {l : List Str} (hl : l ≠ [])
    (hx : '\n' ∉ x) :
    splitOnChar '\n' (pjoin (lit "\n") (x :: l))
      = x :: splitOnChar '\n' (pjoin (lit "\n") l) := by
  rw [pjoin_cons_ne (lit "\n") x hl]
  rw [show x ++ lit "\n" ++ pjoin (lit "\n") l
      = x ++ '\n' :: pjoin (lit "\n") l by simp [lit]]
  exact splitOnChar_append '\n' x _ hx

/-- The document assembled for an article with a clean, non-empty id
carries that id in its first marker line, and the scan recovers it. -/
theorem extractId_assembleDocument (env : Env) (a : Article) (body : Str)
    (hid : a.id ≠ []) (hstrip : pstrip a.id = a.id) (hidnl : '\n' ∉ a.id)
    (hidm : containsSub a.id idMarker = false) (htnl : '\n' ∉ a.title) :
    extractId (assembleDocument env a body) = some a.id := by
  unfold assembleDocument extractId
  rw [if_pos hid]
  simp only [List.cons_append, List.nil_append]
  have h1 : '\n' ∉ lit "# " ++ a.title := by
    intro hm
    rcases List.mem_append.mp hm with hm | hm
    · simp [lit] at hm
    · exact htnl hm
  have h4 : '\n' ∉ lit "- **ID**: " ++ a.id := by
    intro hm
    rcases List.mem_append.mp hm with hm | hm
    · simp [lit] at hm
    · exact hidnl hm
  rw [splitOnChar_pjoin_cons _ (by simp) h1,
      splitOnChar_pjoin_cons _ (by simp) (by simp),
      splitOnChar_pjoin_cons _ (by simp) (by intro hm; simp [lit] at hm),
      splitOnChar_pjoin_cons _ (by simp) h4]
  rw [List.find?_cons_of_neg _ (by
        intro hc
        have hc' : idMarker.isPrefixOf (lit "# " ++ a.title) = true := hc
        rw [show lit "# " ++ a.title = '#' :: (' ' :: a.title) from rfl] at hc'
        rw [show idMarker = '-' :: (lit " **ID**: ") from rfl] at hc'
        simp [List.isPrefixOf] at hc'),
      List.find?_cons_of_neg _ (by simp [idMarker, List.isPrefixOf]),
      List.find?_cons_of_neg _ (by simp [idMarker, lit, List.isPrefixOf]),
      List.find?_cons_of_pos _ ((List.isPrefixOf_iff_prefix).mpr
        ⟨a.id, by rw [show lit "- **ID**: " ++ a.id = idMarker ++ a.id from rfl]⟩)]
  show some (pstrip (pyReplace idMarker []
    (lit "- **ID**: " ++ a.id))) = some a.id
  congr 1
  rw [show lit "- **ID**: " ++ a.id = idMarker ++ a.id from rfl,
      pyReplace_eat ([] : Str) a.id (by decide), List.nil_append,
      pyReplace_no_occ ([] : Str) a.id hidm, hstrip]

/-- A well-behaved article id: non-empty, stripped, single-line, and not
containing the marker text itself. -/
def goodId (id : Str) : Prop :=
  id ≠ [] ∧ pstrip id = id ∧ '\n' ∉ id ∧ containsSub id idMarker = false

/-- An article whose id round-trips through its own document. -/
def goodArticle (a : Article) : Prop := goodId a.id ∧ '\n' ∉ a.title

theorem extractId_generate (env : Env) (a : Article) (imgs : List Str)
    (h : goodArticle a) :
    extractId (generate_article_markdown env a imgs).1 = some a.id := by
  unfold generate_article_markdown
  exact extractId_assembleDocument env a _ h.1.1 h.1.2.1 h.1.2.2.1
    h.1.2.2.2 h.2

theorem writeFile_mem_named {files : List (Str × Str)} {n c : Str}
    {f : Str × Str} (hf : f ∈ writeFile files n c) (hn : f.1 = n) :
    f = (n, c) := by
  unfold writeFile at hf
  split at hf
  · obtain ⟨p, hp, hpe⟩ := List.mem_map.mp hf
    by_cases hpn : p.1 = n
    · rw [if_pos hpn] at hpe
      exact hpe.symm
    · rw [if_neg hpn] at hpe
      exact absurd (hpe ▸ hn) hpn
  · rename_i hnc
    rcases List.mem_append.mp hf with hm | hm
    · exact absurd (List.elem_iff.mpr
        (List.mem_map.mpr ⟨f, hm, hn⟩)) hnc
    · exact List.mem_singleton.mp hm

theorem get_existing_spec {files : List (Str × Str)} {id c : Str}
    (h : get_existing_article_content files id = some c) :
    ∃ f ∈ files, f.2 = c ∧ extractId f.2 = some id := by
  unfold get_existing_article_content at h
  split at h
  · exact absurd h (by simp)
  · obtain ⟨f, hf, hfe⟩ := List.exists_of_findSome?_eq_some h
    refine ⟨f, hf, ?_⟩
    cases he : extractId f.2 with
    | none => rw [he] at hfe; simp at hfe
    | some i =>
      rw [he] at hfe
      simp only at hfe
      by_cases hi : i = id
      · rw [if_pos hi] at hfe
        exact ⟨Option.some_inj.mp hfe, by rw [hi]⟩
      · rw [if_neg hi] at hfe
        simp at hfe

/-- What one pass of the per-article step does to the filesystem: the
image cache advances by the article's render, the log is untouched, and
the files either receive the freshly generated document under the
article's computed name or (when the stored copy already equals it) are
left alone. -/
theorem processArticle_spec (env : Env) (E : List Str) (fs : FS) (i : Nat)
    (a : Article) :
    (processArticle env E fs i a).2.images
        = (generate_article_markdown env a fs.images).2.1
    ∧ (processArticle env E fs i a).2.log = fs.log
    ∧ ((processArticle env E fs i a).2.files
          = writeFile fs.files (articleFileName env i a)
              (generate_article_markdown env a fs.images).1
       ∨ ((processArticle env E fs i a).2.files = fs.files
          ∧ get_existing_article_content fs.files a.id
              = some (generate_article_markdown env a fs.images).1)) := by
  simp only [processArticle]
  split
  · exact ⟨rfl, rfl, Or.inl rfl⟩
  · split
    · split
      · rename_i c hc he
        exact ⟨rfl, rfl, Or.inr ⟨rfl, he ▸ hc⟩⟩
      · exact ⟨rfl, rfl, Or.inl rfl⟩
    · exact ⟨rfl, rfl, Or.inl rfl⟩

/-- The state after one pass of the main loop over well-behaved,
pairwise-distinct articles: the image cache only ever grows (by fetched
keys), file names stay unique, the loop only writes the articles' own
files (each carrying its article's id), and afterwards every article has
exactly one file on disk — its computed name, holding exactly the
document the article generates against the final cache, which the
article's render can no longer grow. -/
theorem runLoop_run1 (env : Env) (E : List Str) :
    ∀ (rest : List (Nat × Article)) (fs : FS),
    (∀ p ∈ rest, goodArticle p.2) →
    List.Pairwise (fun p q => p.2.id ≠ q.2.id) rest →
    List.Pairwise (fun p q =>
      articleFileName env p.1 p.2 ≠ articleFileName env q.1 q.2) rest →
    (fs.files.map Prod.fst).Nodup →
    (∀ p ∈ rest, ∀ f ∈ fs.files, extractId f.2 = some p.2.id →
        f.1 = articleFileName env p.1 p.2) →
    ExtOk env fs.images (runLoop env E rest fs).2.images
    ∧ ((runLoop env E rest fs).2.files.map Prod.fst).Nodup
    ∧ (∀ f ∈ (runLoop env E rest fs).2.files,
         f ∈ fs.files ∨ ∃ p ∈ rest, f.1 = articleFileName env p.1 p.2
           ∧ extractId f.2 = some p.2.id)
    ∧ (∀ f ∈ fs.files, f ∈ (runLoop env E rest fs).2.files
         ∨ ∃ p ∈ rest, f.1 = articleFileName env p.1 p.2)
    ∧ (∀ p ∈ rest,
         (∀ f ∈ (runLoop env E rest fs).2.files,
            extractId f.2 = some p.2.id →
            f = (articleFileName env p.1 p.2,
                 (generate_article_markdown env p.2
                   (runLoop env E rest fs).2.images).1))
         ∧ (∃ f ∈ (runLoop env E rest fs).2.files,
              extractId f.2 = some p.2.id)
         ∧ (resolvedBody env p.2 (runLoop env E rest fs).2.images).2.1
             = (runLoop env E rest fs).2.images) := by
  intro rest
  induction rest with
  | nil =>
    intro fs hgood hids hfnames hnodup hcarrier
    simp only [runLoop]
    refine ⟨extOk_refl env fs.images, hnodup, ?_, ?_, ?_⟩
    · intro f hf; exact Or.inl hf
    · intro f hf; exact Or.inl hf
    · intro p hp; exact absurd hp (List.not_mem_nil p)
  | cons q rest' ih =>
    obtain ⟨i, a⟩ := q
    intro fs hgood hids hfnames hnodup hcarrier
    have hga : goodArticle a := hgood (i, a) (List.mem_cons_self _ _)
    rw [List.pairwise_cons] at hids hfnames
    obtain ⟨hidh, hidt⟩ := hids
    obtain ⟨hfh, hft⟩ := hfnames
    obtain ⟨hPimg, hPlog, hPfiles⟩ := processArticle_spec env E fs i a
    set fs' := (processArticle env E fs i a).2 with hfs'
    set fname := articleFileName env i a with hfname
    set md := (generate_article_markdown env a fs.images).1 with hmd
    have hxmd : extractId md = some a.id := extractId_generate env a fs.images hga
    have hext' : ExtOk env fs.images fs'.images :=
      processArticle_images_extOk env E fs i a
    have hnodup' : (fs'.files.map Prod.fst).Nodup := by
      rcases hPfiles with hW | ⟨hNC, _⟩
      · rw [hW]; exact writeFile_names_nodup hnodup
      · rw [hNC]; exact hnodup
    have hmem_of : ∀ f ∈ fs'.files, f ∈ fs.files ∨ f = (fname, md) := by
      intro f hf
      rcases hPfiles with hW | ⟨hNC, _⟩
      · rw [hW] at hf; exact writeFile_mem hf
      · rw [hNC] at hf; exact Or.inl hf
    have hmem_to : ∀ f ∈ fs.files, f.1 ≠ fname → f ∈ fs'.files := by
      intro f hf hfn
      rcases hPfiles with hW | ⟨hNC, _⟩
      · rw [hW]; exact writeFile_mem_other hf hfn
      · rw [hNC]; exact hf
    have hself : (fname, md) ∈ fs'.files := by
      rcases hPfiles with hW | ⟨hNC, hStored⟩
      · rw [hW]; exact writeFile_mem_self fs.files fname md
      · obtain ⟨f₀, hf₀, hc₀, hx₀⟩ := get_existing_spec hStored
        obtain ⟨n₀, c₀⟩ := f₀
        have hn₀ : n₀ = fname := hcarrier (i, a) (List.mem_cons_self _ _)
          (n₀, c₀) hf₀ hx₀
        rw [hNC]
        rw [← hn₀, ← hc₀]
        exact hf₀
    have hnamed : ∀ f ∈ fs'.files, f.1 = fname → f = (fname, md) := by
      intro f hf hfn
      rcases hPfiles with hW | ⟨hNC, hStored⟩
      · rw [hW] at hf; exact writeFile_mem_named hf hfn
      · rw [hNC] at hf
        have hs' : (fname, md) ∈ fs.files := by rw [← hNC]; exact hself
        exact nodup_names_unique hnodup hf hs' hfn
    have hUniq' : ∀ f ∈ fs'.files, extractId f.2 = some a.id →
        f = (fname, md) := by
      intro f hf hx
      rcases hmem_of f hf with hm | he
      · exact hnamed f hf (hcarrier (i, a) (List.mem_cons_self _ _) f hm hx)
      · exact he
    have hcarrier' : ∀ p ∈ rest', ∀ f ∈ fs'.files,
        extractId f.2 = some p.2.id → f.1 = articleFileName env p.1 p.2 := by
      intro p hp f hf hx
      rcases hmem_of f hf with hm | he
      · exact hcarrier p (List.mem_cons_of_mem _ hp) f hm hx
      · exfalso
        rw [he] at hx
        rw [hxmd] at hx
        exact hidh p hp (Option.some_inj.mp hx)
    obtain ⟨ihExt, ihNodup, ihNew, ihOld, ihPer⟩ :=
      ih fs' (fun p hp => hgood p (List.mem_cons_of_mem _ hp))
        hidt hft hnodup' hcarrier'
    have hrl : runLoop env E ((i, a) :: rest') fs
        = ((processArticle env E fs i a).1 :: (runLoop env E rest' fs').1,
           (runLoop env E rest' fs').2) := by
      simp only [runLoop]
    rw [hrl]
    have hgen_eq : md = (generate_article_markdown env a
        (runLoop env E rest' fs').2.images).1 :=
      generate_stable env a (extOk_trans hext' ihExt)
    refine ⟨extOk_trans hext' ihExt, ihNodup, ?_, ?_, ?_⟩
    · intro f hf
      rcases ihNew f hf with hm | ⟨p, hp, h1, h2⟩
      · rcases hmem_of f hm with hm' | he
        · exact Or.inl hm'
        · refine Or.inr ⟨(i, a), List.mem_cons_self _ _, ?_, ?_⟩
          · rw [he]
          · rw [he]; exact hxmd
      · exact Or.inr ⟨p, List.mem_cons_of_mem _ hp, h1, h2⟩
    · intro f hf
      by_cases hfn : f.1 = fname
      · exact Or.inr ⟨(i, a), List.mem_cons_self _ _, hfn⟩
      · rcases ihOld f (hmem_to f hf hfn) with hm | ⟨p, hp, h1⟩
        · exact Or.inl hm
        · exact Or.inr ⟨p, List.mem_cons_of_mem _ hp, h1⟩
    · intro p hp
      rcases List.mem_cons.mp hp with he | hp'
      · subst he
        refine ⟨?_, ?_, ?_⟩
        · intro f hf hx
          rcases ihNew f hf with hm | ⟨q', hq', h1, h2⟩
          · rw [← hgen_eq]
            exact hUniq' f hm hx
          · exfalso
            rw [h2] at hx
            exact hidh q' hq' (Option.some_inj.mp hx).symm
        · rcases ihOld (fname, md) hself with hm | ⟨q', hq', h1⟩
          · exact ⟨(fname, md), hm, hxmd⟩
          · exact absurd h1 (hfh q' hq')
        · apply resolvedBody_images_fix env a (i := fs.images)
          intro k hk
          apply ihExt.1
          rw [hPimg]
          exact hk
      · exact ihPer p hp'

/-- The second pass: when every article already has its stored document
equal to what it would regenerate, and its render cannot grow the image
cache, the loop classifies everything `unchanged` and the filesystem is
returned untouched. -/
theorem runLoop_run2 (env : Env) (E : List Str) :
    ∀ (rest : List (Nat × Article)) (fs : FS),
    (∀ p ∈ rest, p.2.id ≠ [] ∧ p.2.id ∈ E) →
    (∀ p ∈ rest, get_existing_article_content fs.files p.2.id
        = some (generate_article_markdown env p.2 fs.images).1) →
    (∀ p ∈ rest, (resolvedBody env p.2 fs.images).2.1 = fs.images) →
    runLoop env E rest fs
      = (List.replicate rest.length SyncClass.unchanged, fs) := by
  intro rest
  induction rest with
  | nil =>
    intro fs _ _ _
    simp only [runLoop, List.length_nil, List.replicate]
  | cons q rest' ih =>
    obtain ⟨i, a⟩ := q
    intro fs
    obtain ⟨files, imgs, lg⟩ := fs
    intro hids hstored hfix
    have h1 : a.id ≠ [] := (hids (i, a) (List.mem_cons_self _ _)).1
    have h2 : a.id ∈ E := (hids (i, a) (List.mem_cons_self _ _)).2
    have hnew : isNewArticle E a = false := by
      unfold isNewArticle
      rw [if_pos h1]
      rw [show E.contains a.id = true from List.elem_iff.mpr h2]
      rfl
    have himg : (generate_article_markdown env a
        (FS.mk files imgs lg).images).2.1 = (FS.mk files imgs lg).images :=
      hfix (i, a) (List.mem_cons_self _ _)
    have hstep : processArticle env E (FS.mk files imgs lg) i a
        = (SyncClass.unchanged, FS.mk files imgs lg) := by
      simp only [processArticle, hnew, Bool.false_eq_true, if_false]
      simp only at himg
      simp only [himg]
      rw [hstored (i, a) (List.mem_cons_self _ _)]
      simp
    simp only [runLoop, hstep]
    rw [ih (FS.mk files imgs lg)
      (fun p hp => hids p (List.mem_cons_of_mem _ hp))
      (fun p hp => hstored p (List.mem_cons_of_mem _ hp))
      (fun p hp => hfix p (List.mem_cons_of_mem _ hp))]
    simp [List.replicate_succ]

theorem mem_enumFrom_snd {α : Type _} {n : Nat} {l : List α} {p : Nat × α}
    (hp : p ∈ List.enumFrom n l) : p.2 ∈ l := by
  induction l generalizing n with
  | nil => simp [List.enumFrom] at hp
  | cons x xs ih =>
    simp only [List.enumFrom] at hp
    rcases List.mem_cons.mp hp with he | hm
    · rw [he]
      exact List.mem_cons_self _ _
    · exact List.mem_cons_of_mem _ (ih hm)

theorem pairwise_enumFrom {α : Type _} {R : α → α → Prop} {l : List α}
    (h : l.Pairwise R) (n : Nat) :
    (List.enumFrom n l).Pairwise fun p q => R p.2 q.2 := by
  induction l generalizing n with
  | nil => simp [List.enumFrom]
  | cons x xs ih =>
    rw [List.pairwise_cons] at h
    simp only [List.enumFrom]
    rw [List.pairwise_cons]
    exact ⟨fun q hq => h.1 q.2 (mem_enumFrom_snd hq), ih h.2 (n + 1)⟩

theorem count_replicate_unchanged (n : Nat) :
    (List.replicate n SyncClass.unchanged).count SyncClass.new = 0
    ∧ (List.replicate n SyncClass.unchanged).count SyncClass.updated = 0 := by
  induction n with
  | zero => exact ⟨rfl, rfl⟩
  | succ n ih =>
    rw [List.replicate_succ]
    simp [List.count_cons, ih.1, ih.2]
    exact ⟨rfl, rfl⟩

/-- The log phase: the files of the final state are the files after the
main loop, and the final image cache compatibly extends the loop's. -/
theorem convert_json_files_images (env : Env) (articles : List Article)
    (fs : FS) :
    (convert_json_to_markdown env articles fs).2.files
      = (runLoop env (get_existing_article_ids fs.files)
          (List.enumFrom 1 articles) fs).2.files
    ∧ ExtOk env
        (runLoop env (get_existing_article_ids fs.files)
          (List.enumFrom 1 articles) fs).2.images
        (convert_json_to_markdown env articles fs).2.images := by
  simp only [convert_json_to_markdown]
  refine ⟨trivial, ?_⟩
  rw [apply_ite (Prod.snd :
    List Str × List Str → List Str)]
  split
  · exact updSectionLines_images_extOk env _ _ _ _
  · exact extOk_refl env _

/-- A run whose main loop classifies everything `unchanged` and leaves
the state alone returns the classification list `unchanged^n` and does
not touch files or images (only the log). -/
theorem convert_json_second_run (env : Env) (articles : List Article)
    (fs : FS)
    (h : runLoop env (get_existing_article_ids fs.files)
          (List.enumFrom 1 articles) fs
        = (List.replicate (List.enumFrom 1 articles).length
            SyncClass.unchanged, fs)) :
    (convert_json_to_markdown env articles fs).1
      = List.replicate articles.length SyncClass.unchanged
    ∧ (convert_json_to_markdown env articles fs).2.files = fs.files
    ∧ (convert_json_to_markdown env articles fs).2.images = fs.images := by
  simp only [convert_json_to_markdown, h]
  refine ⟨?_, trivial, ?_⟩
  · rw [List.enumFrom_length]
  · rw [apply_ite (Prod.snd :
      List Str × List Str → List Str)]
    rw [(count_replicate_unchanged _).2]
    simp

theorem processArticle_empty_id_class (env : Env) (E : List Str) (fs : FS)
    (i : Nat) (a : Article) (h : a.id = []) :
    (processArticle env E fs i a).1 = SyncClass.new := by
  have hnew : isNewArticle E a = true := by
    unfold isNewArticle
    rw [h]
    simp
  simp [processArticle, hnew]

/-- An article the upstream export delivers without an id. -/
def aC1 : Article :=
  { id := [], title := lit "T", authors := [], last_edited := [],
    tags := [], countries := [], channels := [], key_takeaways := [],
    content := J.null }

theorem convert_json_empty_id_classes (env : Env) (fs : FS) :
    (convert_json_to_markdown env [aC1] fs).1 = [SyncClass.new] := by
  simp only [convert_json_to_markdown]
  rw [show List.enumFrom 1 [aC1] = [(1, aC1)] from rfl]
  simp only [runLoop]
  rw [processArticle_empty_id_class env _ fs 1 aC1 rfl]

/-- C1 counterexample: running the sync twice on the same single-article
input starting from an empty output directory does NOT classify the
article as unchanged on the second run — an article whose `id` is empty
is classified `new` (and its file rewritten) on every run, because
`is_new` is forced to `True` for a falsy id.  So idempotence fails as
stated for every input containing an id-less article. -/
theorem c1_idempotence_counterexample :
    (convert_json_to_markdown envId [aC1]
        (convert_json_to_markdown envId [aC1] ⟨[], [], []⟩).2).1
      = [SyncClass.new]
    ∧ [SyncClass.new] ≠ List.replicate 1 SyncClass.unchanged :=
  ⟨convert_json_empty_id_classes envId _, by decide⟩

/-- C1 (amended): the sync engine is idempotent on well-behaved inputs.
If every article has a non-empty id that survives its own document
round-trip (stripped, single-line, not containing the marker text) and a
single-line title, the ids are pairwise distinct, the computed file
names are pairwise distinct, the initial directory has no duplicate file
names, and any pre-existing file carrying an article's id is stored
under that article's computed name, then a second run with the identical
input classifies every article `unchanged` and leaves both the article
files and the image cache exactly as the first run left them (only the
log grows). -/
theorem c1_idempotence_amended (env : Env) (articles : List Article)
    (fs₀ : FS)
    (hgood : ∀ a ∈ articles, goodArticle a)
    (hids : articles.Pairwise fun x y => x.id ≠ y.id)
    (hfn : (List.enumFrom 1 articles).Pairwise fun p q =>
        articleFileName env p.1 p.2 ≠ articleFileName env q.1 q.2)
    (hnodup : (fs₀.files.map Prod.fst).Nodup)
    (hcarrier : ∀ p ∈ List.enumFrom 1 articles, ∀ f ∈ fs₀.files,
        extractId f.2 = some p.2.id → f.1 = articleFileName env p.1 p.2) :
    (convert_json_to_markdown env articles
        (convert_json_to_markdown env articles fs₀).2).1
      = List.replicate articles.length SyncClass.unchanged
    ∧ (convert_json_to_markdown env articles
        (convert_json_to_markdown env articles fs₀).2).2.files
      = (convert_json_to_markdown env articles fs₀).2.files
    ∧ (convert_json_to_markdown env articles
        (convert_json_to_markdown env articles fs₀).2).2.images
      = (convert_json_to_markdown env articles fs₀).2.images := by
  obtain ⟨R1ext, R1nodup, R1new, R1old, R1per⟩ :=
    runLoop_run1 env (get_existing_article_ids fs₀.files)
      (List.enumFrom 1 articles) fs₀
      (fun p hp => hgood p.2 (mem_enumFrom_snd hp))
      (pairwise_enumFrom hids 1) hfn hnodup hcarrier
  obtain ⟨hFiles, hImgExt⟩ := convert_json_files_images env articles fs₀
  have hids2 : ∀ p ∈ List.enumFrom 1 articles,
      p.2.id ≠ []
      ∧ p.2.id ∈ get_existing_article_ids
          (convert_json_to_markdown env articles fs₀).2.files := by
    intro p hp
    have hg := hgood p.2 (mem_enumFrom_snd hp)
    refine ⟨hg.1.1, ?_⟩
    obtain ⟨f, hf, hx⟩ := (R1per p hp).2.1
    exact mem_get_existing_article_ids.mpr ⟨f, by rw [hFiles]; exact hf, hx⟩
  have hstored2 : ∀ p ∈ List.enumFrom 1 articles,
      get_existing_article_content
          (convert_json_to_markdown env articles fs₀).2.files p.2.id
        = some (generate_article_markdown env p.2
            (convert_json_to_markdown env articles fs₀).2.images).1 := by
    intro p hp
    have hg := hgood p.2 (mem_enumFrom_snd hp)
    have hmem0 : (articleFileName env p.1 p.2,
        (generate_article_markdown env p.2
          (runLoop env (get_existing_article_ids fs₀.files)
            (List.enumFrom 1 articles) fs₀).2.images).1)
        ∈ (convert_json_to_markdown env articles fs₀).2.files := by
      obtain ⟨f, hf, hx⟩ := (R1per p hp).2.1
      have he := (R1per p hp).1 f hf hx
      rw [hFiles, ← he]
      exact hf
    have hres := get_existing_unique hg.1.1 hmem0
      (extractId_generate env p.2 _ hg)
      (fun f hf hx => (R1per p hp).1 f (by rw [hFiles] at hf; exact hf) hx)
    rw [hres]
    exact congrArg some (generate_stable env p.2 hImgExt)
  have hfix2 : ∀ p ∈ List.enumFrom 1 articles,
      (resolvedBody env p.2
          (convert_json_to_markdown env articles fs₀).2.images).2.1
        = (convert_json_to_markdown env articles fs₀).2.images := by
    intro p hp
    apply resolvedBody_images_fix env p.2
      (i := (runLoop env (get_existing_article_ids fs₀.files)
        (List.enumFrom 1 articles) fs₀).2.images)
    intro k hk
    rw [(R1per p hp).2.2] at hk
    exact hImgExt.1 k hk
  exact convert_json_second_run env articles
    (convert_json_to_markdown env articles fs₀).2
    (runLoop_run2 env _ (List.enumFrom 1 articles)
      (convert_json_to_markdown env articles fs₀).2 hids2 hstored2 hfix2)

/-- A well-behaved article for exercising the amended idempotence. -/
def aW : Article :=
  { id := lit "x", title := lit "T", authors := [], last_edited := [],
    tags := [], countries := [], channels := [], key_takeaways := [],
    content := J.null }

theorem c1_idempotence_amended_witness :
    (∀ a ∈ [aW], goodArticle a)
    ∧ (convert_json_to_markdown envId [aW]
         (convert_json_to_markdown envId [aW] ⟨[], [], []⟩).2).1
        = List.replicate 1 SyncClass.unchanged :=
  ⟨by
     intro a ha
     rw [List.mem_singleton.mp ha]
     exact ⟨⟨by decide, by decide, by decide, by decide⟩, by decide⟩,
   (c1_idempotence_amended envId [aW] ⟨[], [], []⟩
     (by
       intro a ha
       rw [List.mem_singleton.mp ha]
       exact ⟨⟨by decide, by decide, by decide, by decide⟩, by decide⟩)
     (by simp)
     (by simp [List.enumFrom])
     (by simp)
     (fun p hp f hf => absurd hf (List.not_mem_nil f))).1⟩

/- ==================== C7: totality of the renderer ==================== -/

/-- Python `for x in v` raises `TypeError` exactly on the non-iterable
JSON values (numbers, booleans, `None`); strings and dicts iterate
(yielding strings, which every renderer loop skips), lists iterate. -/
def iterCrashes : J → Bool
  | .jnum _ => true
  | .jbool _ => true
  | .null => true
  | _ => false

/-- `node.get('attrs', {}).get(...)` raises `AttributeError` exactly when
an `attrs` field is present but is not a dict. -/
def attrsBad (o : J) : Bool :=
  match jget o "attrs" with
  | some (.jobj _) => false
  | some _ => true
  | none => false

/-- `'#' * level` (line 328) raises `TypeError` when a present `level`
attribute is neither an integer nor a boolean. -/
def levelBad (o : J) : Bool :=
  match jget o "attrs" with
  | some (.jobj afs) =>
    match lookupField afs "level" with
    | some (.jnum _) => false
    | some (.jbool _) => false
    | some _ => true
    | none => false
  | _ => false

/-- `start_num + i` (line 361) raises `TypeError` when a present `start`
attribute is neither an integer nor a boolean. -/
def startBad (o : J) : Bool :=
  match jget o "attrs" with
  | some (.jobj afs) =>
    match lookupField afs "start" with
    | some (.jnum _) => false
    | some (.jbool _) => false
    | some _ => true
    | none => false
  | _ => false

/-- Crashes raised inside `convert_text_node_to_markdown` (lines
285-312): iterating a non-iterable `marks` value, or looking `href` up
in a non-dict `attrs` of a link mark. -/
def textNodeCrashes (n : J) : Bool :=
  if getType n = lit "text" then
    (match jget n "marks" with
     | some mv => iterCrashes mv
     | none => false)
    || (iterList (jgetD n "marks" (J.jarr []))).any fun m =>
         if isObj m ∧ getType m = lit "link" then attrsBad m else false
  else false

/-- `convert_text_node_to_markdown` returns a non-string (its raw `text`
value), making the caller's `''.join` raise `TypeError`: the node is a
text node whose `text` value is not a string and no recognized dict mark
reformats it through an f-string. -/
def textNodeNonStr (n : J) : Bool :=
  if getType n = lit "text" then
    (match jget n "text" with
     | some (.jstr _) => false
     | some _ => true
     | none => false)
    && !((iterList (jgetD n "marks" (J.jarr []))).any fun m =>
         if isObj m ∧ (getType m = lit "bold" ∨ getType m = lit "italic"
             ∨ getType m = lit "code" ∨ getType m = lit "link"
             ∨ getType m = lit "strike") then true else false)
  else false

/-- Crashes of `convert_paragraph_to_markdown` (lines 271-283): iterating
a non-iterable `content` value, a crash inside a text child, or the
final `''.join` over a non-string text-child result. -/
def paragraphCrashes (o : J) : Bool :=
  match jget o "content" with
  | some c =>
    iterCrashes c
    || (iterList c).any fun x =>
         if isObj x then textNodeCrashes x || textNodeNonStr x else false
  | none => false

/-- Crashes of `convert_heading_to_markdown` (lines 314-328): the `level`
lookup runs before the `content` guard, the text children behave as in a
paragraph, and `'#' * level` needs an integer level. -/
def headingCrashes (o : J) : Bool :=
  attrsBad o
  || match jget o "content" with
     | some c =>
       iterCrashes c
       || (iterList c).any (fun x =>
            if isObj x then textNodeCrashes x || textNodeNonStr x else false)
       || levelBad o
     | none => false

/-- Crashes of `convert_code_block_to_markdown` (lines 399-413):
iterating a non-iterable `content`, `''.join` over a non-string `text`
of a text child, or the `language` lookup in a non-dict `attrs`. -/
def codeBlockCrashes (o : J) : Bool :=
  match jget o "content" with
  | some c =>
    iterCrashes c
    || (iterList c).any (fun x =>
         if isObj x ∧ getType x = lit "text" then
           match jget x "text" with
           | some (.jstr _) => false
           | some _ => true
           | none => false
         else false)
    || attrsBad o
  | none => false

mutual

/-- `convert_to_markdown` runs without raising (lines 219-234): with a
dict argument carrying `content`, the `content` value must iterate and
every dict child must process safely; all other arguments return `""`. -/
def renderSafe (o : J) : Bool :=
  match hg : jget o "content" with
  | some cv =>
    !(iterCrashes cv)
    && ((iterList cv).attach.all fun x =>
         match x.1 with
         | .jobj _ => nodeSafe x.1
         | _ => true)
  | none => true
termination_by (sizeOf o, 0)
decreasing_by
  all_goals try simp_wf
  all_goals
    first
      | exact Prod.Lex.right _ (by omega)
      | exact Prod.Lex.left _ _ (mem_content_sizeOf hg x.2)
      | exact Prod.Lex.left _ _
          (Nat.lt_trans (mem_iterList_jgetD_sizeOf c.2) (mem_content_sizeOf hg r.2))

/-- `convert_node_to_markdown` runs without raising (lines 236-269). -/
def nodeSafe (o : J) : Bool :=
  let t := getType o
  if t = lit "paragraph" then !(paragraphCrashes o)
  else if t = lit "heading" then !(headingCrashes o)
  else if t = lit "bulletList" then bulletSafe o
  else if t = lit "orderedList" then orderedSafe o
  else if t = lit "listItem" then listItemSafe o
  else if t = lit "blockquote" then blockquoteSafe o
  else if t = lit "codeBlock" then !(codeBlockCrashes o)
  else if t = lit "table" then tableSafe o
  else if t = lit "image" then !(attrsBad o)
  else if t = lit "imageResize" then !(attrsBad o)
  else if t = lit "horizontalRule" then true
  else
    match jget o "content" with
    | some _ => renderSafe o
    | none => true
termination_by (sizeOf o, 1)
decreasing_by
  all_goals try simp_wf
  all_goals
    first
      | exact Prod.Lex.right _ (by omega)
      | exact Prod.Lex.left _ _ (mem_content_sizeOf hg x.2)

/-- `convert_bullet_list_to_markdown` runs without raising (lines
330-344). -/
def bulletSafe (o : J) : Bool :=
  match hg : jget o "content" with
  | some cv =>
    !(iterCrashes cv)
    && ((iterList cv).attach.all fun x =>
         match x.1 with
         | .jobj _ =>
           if getType x.1 = lit "listItem" then listItemSafe x.1 else true
         | _ => true)
  | none => true
termination_by (sizeOf o, 0)
decreasing_by
  all_goals try simp_wf
  all_goals
    first
      | exact Prod.Lex.right _ (by omega)
      | exact Prod.Lex.left _ _ (mem_content_sizeOf hg x.2)

/-- `convert_ordered_list_to_markdown` runs without raising (lines
346-365): on top of the bullet-list conditions, the `start` lookup needs
a dict `attrs`, and `start_num + i` is evaluated — and needs a numeric
start — as soon as one `listItem` child renders non-blank. -/
def orderedSafe (o : J) : Bool :=
  match hg : jget o "content" with
  | some cv =>
    !(attrsBad o)
    && !(iterCrashes cv)
    && ((iterList cv).attach.all fun x =>
         match x.1 with
         | .jobj _ =>
           if getType x.1 = lit "listItem" then listItemSafe x.1 else true
         | _ => true)
    && !(startBad o
         && (iterList cv).any fun x =>
              if isObj x ∧ getType x = lit "listItem" then
                !(pstrip (convert_list_item_to_markdown x)).isEmpty
              else false)
  | none => true
termination_by (sizeOf o, 0)
decreasing_by
  all_goals try simp_wf
  all_goals
    first
      | exact Prod.Lex.right _ (by omega)
      | exact Prod.Lex.left _ _ (mem_content_sizeOf hg x.2)

/-- `convert_list_item_to_markdown` runs without raising (lines
367-382). -/
def listItemSafe (o : J) : Bool :=
  match hg : jget o "content" with
  | some cv =>
    !(iterCrashes cv)
    && ((iterList cv).attach.all fun x =>
         match x.1 with
         | .jobj _ =>
           if getType x.1 = lit "paragraph" then !(paragraphCrashes x.1)
           else nodeSafe x.1
         | _ => true)
  | none => true
termination_by (sizeOf o, 0)
decreasing_by
  all_goals try simp_wf
  all_goals
    first
      | exact Prod.Lex.right _ (by omega)
      | exact Prod.Lex.left _ _ (mem_content_sizeOf hg x.2)

/-- `convert_blockquote_to_markdown` runs without raising (lines
384-397). -/
def blockquoteSafe (o : J) : Bool :=
  match hg : jget o "content" with
  | some cv =>
    !(iterCrashes cv)
    && ((iterList cv).attach.all fun x =>
         match x.1 with
         | .jobj _ => nodeSafe x.1
         | _ => true)
  | none => true
termination_by (sizeOf o, 0)
decreasing_by
  all_goals try simp_wf
  all_goals
    first
      | exact Prod.Lex.right _ (by omega)
      | exact Prod.Lex.left _ _ (mem_content_sizeOf hg x.2)

/-- `convert_table_to_markdown` runs without raising (lines 415-445):
each dict `tableRow` child's own `content` value must iterate and its
dict `tableCell` children must process safely. -/
def tableSafe (o : J) : Bool :=
  match hg : jget o "content" with
  | some cv =>
    !(iterCrashes cv)
    && ((iterList cv).attach.all fun r =>
         match r.1 with
         | .jobj _ =>
           if getType r.1 = lit "tableRow" then
             !(iterCrashes (jgetD r.1 "content" (J.jarr [])))
             && ((iterList (jgetD r.1 "content" (J.jarr []))).attach.all
                  fun c =>
                    match c.1 with
                    | .jobj _ =>
                      if getType c.1 = lit "tableCell" then
                        tableCellSafe c.1
                      else true
                    | _ => true)
           else true
         | _ => true)
  | none => true
termination_by (sizeOf o, 0)
decreasing_by
  all_goals try simp_wf
  all_goals
    first
      | exact Prod.Lex.right _ (by omega)
      | exact Prod.Lex.left _ _ (mem_content_sizeOf hg x.2)
      | exact Prod.Lex.left _ _
          (Nat.lt_trans (mem_iterList_jgetD_sizeOf c.2) (mem_content_sizeOf hg r.2))

/-- `convert_table_cell_to_markdown` runs without raising (lines
447-465). -/
def tableCellSafe (o : J) : Bool :=
  match hg : jget o "content" with
  | some cv =>
    !(iterCrashes cv)
    && ((iterList cv).attach.all fun x =>
         match x.1 with
         | .jobj _ =>
           if getType x.1 = lit "paragraph" then !(paragraphCrashes x.1)
           else nodeSafe x.1
         | _ => true)
  | none => true
termination_by (sizeOf o, 0)
decreasing_by
  all_goals try simp_wf
  all_goals
    first
      | exact Prod.Lex.right _ (by omega)
      | exact Prod.Lex.left _ _ (mem_content_sizeOf hg x.2)

end

theorem all_attach_eq {α : Type _} (l : List α) (p : α → Bool) :
    (l.attach.all fun x => p x.1) = l.all p := by
  rw [Bool.eq_iff_iff]
  simp only [List.all_eq_true, List.mem_attach, true_implies, Subtype.forall]

/-- One child of the `convert_to_markdown` loop processes safely. -/
def nodeSafeStep (x : J) : Bool :=
  match x with
  | .jobj _ => nodeSafe x
  | _ => true

/-- One child of a list loop processes safely. -/
def itemSafeStep (x : J) : Bool :=
  match x with
  | .jobj _ => if getType x = lit "listItem" then listItemSafe x else true
  | _ => true

/-- One child of a list item or table cell processes safely. -/
def childSafeStep (x : J) : Bool :=
  match x with
  | .jobj _ =>
    if getType x = lit "paragraph" then !(paragraphCrashes x)
    else nodeSafe x
  | _ => true

/-- One row of the table loop processes safely. -/
def rowSafeStep (r : J) : Bool :=
  match r with
  | .jobj _ =>
    if getType r = lit "tableRow" then
      !(iterCrashes (jgetD r "content" (J.jarr [])))
      && ((iterList (jgetD r "content" (J.jarr []))).attach.all
           fun c =>
             match c.1 with
             | .jobj _ =>
               if getType c.1 = lit "tableCell" then tableCellSafe c.1
               else true
             | _ => true)
    else true
  | _ => true

/-- One cell of a table row processes safely. -/
def cellSafeStep (c : J) : Bool :=
  match c with
  | .jobj _ =>
    if getType c = lit "tableCell" then tableCellSafe c else true
  | _ => true

/-- A non-blank rendered `listItem` child of an ordered list (forcing the
`start_num + i` evaluation). -/
def orderedEmits (x : J) : Bool :=
  if isObj x ∧ getType x = lit "listItem" then
    !(pstrip (convert_list_item_to_markdown x)).isEmpty
  else false

theorem renderSafe_eq (o : J) {cv : J} (hg : jget o "content" = some cv) :
    renderSafe o
      = (!(iterCrashes cv) && (iterList cv).all nodeSafeStep) := by
  rw [renderSafe]
  split
  · rename_i cv' heq
    rw [hg] at heq
    injection heq with h
    subst h
    exact congrArg _ (all_attach_eq _ nodeSafeStep)
  · rename_i heq
    rw [hg] at heq
    exact absurd heq (by simp)

theorem renderSafe_none (o : J) (hg : jget o "content" = none) :
    renderSafe o = true := by
  rw [renderSafe]
  split
  · rename_i cv' heq
    rw [hg] at heq
    exact absurd heq (by simp)
  · rfl

theorem bulletSafe_eq (o : J) {cv : J} (hg : jget o "content" = some cv) :
    bulletSafe o
      = (!(iterCrashes cv) && (iterList cv).all itemSafeStep) := by
  rw [bulletSafe]
  split
  · rename_i cv' heq
    rw [hg] at heq
    injection heq with h
    subst h
    exact congrArg _ (all_attach_eq _ itemSafeStep)
  · rename_i heq
    rw [hg] at heq
    exact absurd heq (by simp)

theorem bulletSafe_none (o : J) (hg : jget o "content" = none) :
    bulletSafe o = true := by
  rw [bulletSafe]
  split
  · rename_i cv' heq
    rw [hg] at heq
    exact absurd heq (by simp)
  · rfl

theorem orderedSafe_eq (o : J) {cv : J} (hg : jget o "content" = some cv) :
    orderedSafe o
      = (!(attrsBad o) && !(iterCrashes cv)
         && (iterList cv).all itemSafeStep
         && !(startBad o && (iterList cv).any orderedEmits)) := by
  rw [orderedSafe]
  split
  · rename_i cv' heq
    rw [hg] at heq
    injection heq with h
    subst h
    exact congrArg₂ (fun u v => ((!(attrsBad o) && !(iterCrashes cv)) && u) && v)
      (all_attach_eq _ itemSafeStep) rfl
  · rename_i heq
    rw [hg] at heq
    exact absurd heq (by simp)

theorem orderedSafe_none (o : J) (hg : jget o "content" = none) :
    orderedSafe o = true := by
  rw [orderedSafe]
  split
  · rename_i cv' heq
    rw [hg] at heq
    exact absurd heq (by simp)
  · rfl

theorem listItemSafe_eq (o : J) {cv : J} (hg : jget o "content" = some cv) :
    listItemSafe o
      = (!(iterCrashes cv) && (iterList cv).all childSafeStep) := by
  rw [listItemSafe]
  split
  · rename_i cv' heq
    rw [hg] at heq
    injection heq with h
    subst h
    exact congrArg _ (all_attach_eq _ childSafeStep)
  · rename_i heq
    rw [hg] at heq
    exact absurd heq (by simp)

theorem listItemSafe_none (o : J) (hg : jget o "content" = none) :
    listItemSafe o = true := by
  rw [listItemSafe]
  split
  · rename_i cv' heq
    rw [hg] at heq
    exact absurd heq (by simp)
  · rfl

theorem blockquoteSafe_eq (o : J) {cv : J} (hg : jget o "content" = some cv) :
    blockquoteSafe o
      = (!(iterCrashes cv) && (iterList cv).all nodeSafeStep) := by
  rw [blockquoteSafe]
  split
  · rename_i cv' heq
    rw [hg] at heq
    injection heq with h
    subst h
    exact congrArg _ (all_attach_eq _ nodeSafeStep)
  · rename_i heq
    rw [hg] at heq
    exact absurd heq (by simp)

theorem blockquoteSafe_none (o : J) (hg : jget o "content" = none) :
    blockquoteSafe o = true := by
  rw [blockquoteSafe]
  split
  · rename_i cv' heq
    rw [hg] at heq
    exact absurd heq (by simp)
  · rfl

theorem tableSafe_eq (o : J) {cv : J} (hg : jget o "content" = some cv) :
    tableSafe o
      = (!(iterCrashes cv) && (iterList cv).all rowSafeStep) := by
  rw [tableSafe]
  split
  · rename_i cv' heq
    rw [hg] at heq
    injection heq with h
    subst h
    exact congrArg _ (all_attach_eq _ rowSafeStep)
  · rename_i heq
    rw [hg] at heq
    exact absurd heq (by simp)

theorem tableSafe_none (o : J) (hg : jget o "content" = none) :
    tableSafe o = true := by
  rw [tableSafe]
  split
  · rename_i cv' heq
    rw [hg] at heq
    exact absurd heq (by simp)
  · rfl

theorem tableCellSafe_eq (o : J) {cv : J} (hg : jget o "content" = some cv) :
    tableCellSafe o
      = (!(iterCrashes cv) && (iterList cv).all childSafeStep) := by
  rw [tableCellSafe]
  split
  · rename_i cv' heq
    rw [hg] at heq
    injection heq with h
    subst h
    exact congrArg _ (all_attach_eq _ childSafeStep)
  · rename_i heq
    rw [hg] at heq
    exact absurd heq (by simp)

theorem tableCellSafe_none (o : J) (hg : jget o "content" = none) :
    tableCellSafe o = true := by
  rw [tableCellSafe]
  split
  · rename_i cv' heq
    rw [hg] at heq
    exact absurd heq (by simp)
  · rfl

theorem rowSafeStep_eq (r : J) (h : isObj r = true)
    (ht : getType r = lit "tableRow") :
    rowSafeStep r
      = (!(iterCrashes (jgetD r "content" (J.jarr [])))
         && (iterList (jgetD r "content" (J.jarr []))).all cellSafeStep) := by
  cases r <;> simp [isObj] at h
  rename_i fs
  unfold rowSafeStep
  split
  · rw [if_pos ht]
    exact congrArg _ (all_attach_eq _ cellSafeStep)
  · rename_i hx
    exact absurd rfl (hx fs)

/-- A present `marks` field is a list whose elements (link marks in
particular) have dict `attrs` when they have `attrs` at all. -/
def marksOk (o : J) : Bool :=
  match jget o "marks" with
  | some (.jarr ms) => ms.all fun m => !(attrsBad m)
  | some _ => false
  | none => true

/-- A present `attrs` field is a dict whose `level` and `start` entries,
when present, are integers. -/
def attrsFieldOk (o : J) : Bool :=
  match jget o "attrs" with
  | some (.jobj afs) =>
    (match lookupField afs "level" with
     | some (.jnum _) => true
     | some _ => false
     | none => true)
    && (match lookupField afs "start" with
        | some (.jnum _) => true
        | some _ => false
        | none => true)
  | some _ => false
  | none => true

/-- A present `text` field is a string. -/
def textFieldOk (o : J) : Bool :=
  match jget o "text" with
  | some (.jstr _) => true
  | some _ => false
  | none => true

/-- Well-formed content trees: on every dict node of the tree, a present
`content` value is a list of well-formed values, a present `marks` value
is a list of marks with dict `attrs`, a present `attrs` value is a dict
with integer `level`/`start`, and a present `text` value is a string.
Non-dict values are unconstrained (the renderer returns `""` for them
without looking inside). -/
def wfJ (o : J) : Bool :=
  if isObj o then
    (match hg : jget o "content" with
     | some (.jarr xs) => xs.attach.all fun x => wfJ x.1
     | some _ => false
     | none => true)
    && marksOk o && attrsFieldOk o && textFieldOk o
  else true
termination_by sizeOf o
decreasing_by
  simp_wf
  have h1 := jget_sizeOf hg
  have h2 := mem_sizeOf_lt x.2
  omega

theorem wfJ_spec {t : J} (h : wfJ t = true) :
    (∀ cv, jget t "content" = some cv →
      ∃ xs, cv = J.jarr xs ∧ ∀ x ∈ xs, wfJ x = true)
    ∧ marksOk t = true ∧ attrsFieldOk t = true ∧ textFieldOk t = true := by
  cases t with
  | jobj fs =>
    rw [wfJ, if_pos (show isObj (J.jobj fs) = true from rfl)] at h
    simp only [Bool.and_eq_true] at h
    obtain ⟨⟨⟨hc, hm⟩, ha⟩, ht⟩ := h
    refine ⟨?_, hm, ha, ht⟩
    intro cv hcv
    split at hc
    · rename_i xs heq
      rw [hcv] at heq
      injection heq with h'
      refine ⟨xs, h', ?_⟩
      rw [all_attach_eq _ wfJ] at hc
      exact fun x hx => List.all_eq_true.mp hc x hx
    · rename_i heq
      exact absurd hc (by simp)
    · rename_i heq
      rw [hcv] at heq
      exact absurd heq (by simp)
  | null =>
    exact ⟨fun cv hcv => by simp [jget] at hcv, rfl, rfl, rfl⟩
  | jbool b =>
    exact ⟨fun cv hcv => by simp [jget] at hcv, rfl, rfl, rfl⟩
  | jnum n =>
    exact ⟨fun cv hcv => by simp [jget] at hcv, rfl, rfl, rfl⟩
  | jstr s =>
    exact ⟨fun cv hcv => by simp [jget] at hcv, rfl, rfl, rfl⟩
  | jarr xs =>
    exact ⟨fun cv hcv => by simp [jget] at hcv, rfl, rfl, rfl⟩

theorem wf_attrsBad {o : J} (h : attrsFieldOk o = true) : attrsBad o = false := by
  unfold attrsBad
  unfold attrsFieldOk at h
  cases ha : jget o "attrs" with
  | none => rfl
  | some v =>
    rw [ha] at h
    cases v <;> first | rfl | simp at h

theorem wf_levelBad {o : J} (h : attrsFieldOk o = true) : levelBad o = false := by
  unfold levelBad
  unfold attrsFieldOk at h
  cases ha : jget o "attrs" with
  | none => rfl
  | some v =>
    rw [ha] at h
    cases v with
    | jobj afs =>
      have h' : (match lookupField afs "level" with
          | some (.jnum _) => true | some _ => false | none => true) = true
          ∧ (match lookupField afs "start" with
          | some (.jnum _) => true | some _ => false | none => true) = true := by
        simpa using h
      show (match lookupField afs "level" with
          | some (.jnum _) => false
          | some (.jbool _) => false
          | some _ => true
          | none => false) = false
      cases hl : lookupField afs "level" with
      | none => rfl
      | some w =>
        have h1 := h'.1
        rw [hl] at h1
        cases w <;> first | rfl | simp at h1
    | null => simp at h
    | jbool b => simp at h
    | jnum m => simp at h
    | jstr s => simp at h
    | jarr l => simp at h

theorem wf_startBad {o : J} (h : attrsFieldOk o = true) : startBad o = false := by
  unfold startBad
  unfold attrsFieldOk at h
  cases ha : jget o "attrs" with
  | none => rfl
  | some v =>
    rw [ha] at h
    cases v with
    | jobj afs =>
      have h' : (match lookupField afs "level" with
          | some (.jnum _) => true | some _ => false | none => true) = true
          ∧ (match lookupField afs "start" with
          | some (.jnum _) => true | some _ => false | none => true) = true := by
        simpa using h
      show (match lookupField afs "start" with
          | some (.jnum _) => false
          | some (.jbool _) => false
          | some _ => true
          | none => false) = false
      cases hl : lookupField afs "start" with
      | none => rfl
      | some w =>
        have h2 := h'.2
        rw [hl] at h2
        cases w <;> first | rfl | simp at h2
    | null => simp at h
    | jbool b => simp at h
    | jnum m => simp at h
    | jstr s => simp at h
    | jarr l => simp at h

theorem wf_textNode {x : J} (hm : marksOk x = true) (ht : textFieldOk x = true) :
    textNodeCrashes x = false ∧ textNodeNonStr x = false := by
  unfold marksOk at hm
  unfold textFieldOk at ht
  constructor
  · unfold textNodeCrashes
    by_cases hty : getType x = lit "text"
    · rw [if_pos hty]
      cases hmk : jget x "marks" with
      | none =>
        simp [jgetD, hmk, iterList]
      | some mv =>
        rw [hmk] at hm
        cases mv with
        | jarr ms =>
          simp only [iterCrashes, Bool.false_or]
          rw [List.any_eq_false]
          intro m hmm
          simp only [jgetD, hmk, Option.getD, iterList] at hmm
          have hma : attrsBad m = false := by
            have := List.all_eq_true.mp hm m hmm
            simpa using this
          split
          · simp [hma]
          · simp
        | null => simp at hm
        | jbool b => simp at hm
        | jnum k => simp at hm
        | jstr s => simp at hm
        | jobj fs => simp at hm
    · rw [if_neg hty]
  · unfold textNodeNonStr
    by_cases hty : getType x = lit "text"
    · rw [if_pos hty]
      cases htx : jget x "text" with
      | none => rfl
      | some v =>
        rw [htx] at ht
        cases v <;> first | rfl | simp at ht
    · rw [if_neg hty]

theorem wf_paragraphCrashes {o : J} (h : wfJ o = true) :
    paragraphCrashes o = false := by
  obtain ⟨hcontent, _, _, _⟩ := wfJ_spec h
  unfold paragraphCrashes
  cases hc : jget o "content" with
  | none => rfl
  | some cv =>
    obtain ⟨xs, hxs, hwfxs⟩ := hcontent cv hc
    subst hxs
    simp only [iterCrashes, Bool.false_or]
    rw [List.any_eq_false]
    intro x hx
    simp only [iterList] at hx
    obtain ⟨_, hm, _, ht⟩ := wfJ_spec (hwfxs x hx)
    have := wf_textNode hm ht
    split
    · simp [this.1, this.2]
    · simp

theorem wf_headingCrashes {o : J} (h : wfJ o = true) :
    headingCrashes o = false := by
  obtain ⟨hcontent, _, hattrs, _⟩ := wfJ_spec h
  unfold headingCrashes
  rw [wf_attrsBad hattrs, Bool.false_or]
  cases hc : jget o "content" with
  | none => rfl
  | some cv =>
    obtain ⟨xs, hxs, hwfxs⟩ := hcontent cv hc
    subst hxs
    simp only [iterCrashes, Bool.false_or]
    rw [wf_levelBad hattrs, Bool.or_false]
    rw [List.any_eq_false]
    intro x hx
    simp only [iterList] at hx
    obtain ⟨_, hm, _, ht⟩ := wfJ_spec (hwfxs x hx)
    have := wf_textNode hm ht
    split
    · simp [this.1, this.2]
    · simp

theorem wf_codeBlockCrashes {o : J} (h : wfJ o = true) :
    codeBlockCrashes o = false := by
  obtain ⟨hcontent, _, hattrs, _⟩ := wfJ_spec h
  unfold codeBlockCrashes
  cases hc : jget o "content" with
  | none => rfl
  | some cv =>
    obtain ⟨xs, hxs, hwfxs⟩ := hcontent cv hc
    subst hxs
    simp only [iterCrashes, Bool.false_or]
    rw [wf_attrsBad hattrs, Bool.or_false]
    rw [List.any_eq_false]
    intro x hx
    simp only [iterList] at hx
    obtain ⟨_, _, _, ht⟩ := wfJ_spec (hwfxs x hx)
    unfold textFieldOk at ht
    split
    · cases htx : jget x "text" with
      | none => simp
      | some v =>
        rw [htx] at ht
        cases v <;> simp_all
    · simp

theorem nodeSafeStep_of {x : J} (h : nodeSafe x = true) :
    nodeSafeStep x = true := by
  cases x with
  | jobj fs =>
    unfold nodeSafeStep
    split
    · exact h
    · rename_i hx
      exact absurd rfl (hx fs)
  | null => rfl
  | jbool b => rfl
  | jnum m => rfl
  | jstr s => rfl
  | jarr l => rfl

theorem itemSafeStep_of {x : J} (h : listItemSafe x = true) :
    itemSafeStep x = true := by
  cases x with
  | jobj fs =>
    unfold itemSafeStep
    split
    · split
      · exact h
      · rfl
    · rename_i hx
      exact absurd rfl (hx fs)
  | null => rfl
  | jbool b => rfl
  | jnum m => rfl
  | jstr s => rfl
  | jarr l => rfl

theorem childSafeStep_of {x : J} (hp : paragraphCrashes x = false)
    (hn : nodeSafe x = true) : childSafeStep x = true := by
  cases x with
  | jobj fs =>
    unfold childSafeStep
    split
    · split
      · rw [hp]; rfl
      · exact hn
    · rename_i hx
      exact absurd rfl (hx fs)
  | null => rfl
  | jbool b => rfl
  | jnum m => rfl
  | jstr s => rfl
  | jarr l => rfl

theorem cellSafeStep_of {x : J} (h : tableCellSafe x = true) :
    cellSafeStep x = true := by
  cases x with
  | jobj fs =>
    unfold cellSafeStep
    split
    · split
      · exact h
      · rfl
    · rename_i hx
      exact absurd rfl (hx fs)
  | null => rfl
  | jbool b => rfl
  | jnum m => rfl
  | jstr s => rfl
  | jarr l => rfl

theorem rowSafeStep_not_row {fs : List (String × J)}
    (h : ¬ getType (J.jobj fs) = lit "tableRow") :
    rowSafeStep (J.jobj fs) = true := by
  unfold rowSafeStep
  split
  · rw [if_neg h]
  · rename_i hx
    exact absurd rfl (hx fs)

/-- Well-formed trees are processed by every renderer entry point
without raising. -/
theorem wf_safe_bundle :
    ∀ (n : Nat) (t : J), sizeOf t ≤ n → wfJ t = true →
      renderSafe t = true ∧ nodeSafe t = true ∧ bulletSafe t = true
      ∧ orderedSafe t = true ∧ listItemSafe t = true
      ∧ blockquoteSafe t = true ∧ tableSafe t = true
      ∧ tableCellSafe t = true := by
  intro n
  induction n with
  | zero =>
    intro t ht _
    exact absurd ht (by cases t <;> simp)
  | succ n ih =>
    intro t hsz hwf
    obtain ⟨hcontent, hmarks, hattrs, htext⟩ := wfJ_spec hwf
    have hns : ∀ cv, jget t "content" = some cv → ∀ x ∈ iterList cv,
        renderSafe x = true ∧ nodeSafe x = true ∧ bulletSafe x = true
        ∧ orderedSafe x = true ∧ listItemSafe x = true
        ∧ blockquoteSafe x = true ∧ tableSafe x = true
        ∧ tableCellSafe x = true ∧ wfJ x = true := by
      intro cv hc x hx
      obtain ⟨xs, hxs, hwfxs⟩ := hcontent cv hc
      have hwx : wfJ x = true := by
        apply hwfxs
        rw [hxs] at hx
        exact hx
      have hszx : sizeOf x ≤ n := by
        have := mem_content_sizeOf hc hx
        omega
      obtain ⟨a1, a2, a3, a4, a5, a6, a7, a8⟩ := ih x hszx hwx
      exact ⟨a1, a2, a3, a4, a5, a6, a7, a8, hwx⟩
    have hiter : ∀ cv, jget t "content" = some cv → iterCrashes cv = false := by
      intro cv hc
      obtain ⟨xs, hxs, _⟩ := hcontent cv hc
      rw [hxs]
      rfl
    have hbul : bulletSafe t = true := by
      cases hc : jget t "content" with
      | none => exact bulletSafe_none t hc
      | some cv =>
        rw [bulletSafe_eq t hc, hiter cv hc]
        simp only [Bool.not_false, Bool.true_and]
        rw [List.all_eq_true]
        intro x hx
        exact itemSafeStep_of (hns cv hc x hx).2.2.2.2.1
    have hord : orderedSafe t = true := by
      cases hc : jget t "content" with
      | none => exact orderedSafe_none t hc
      | some cv =>
        rw [orderedSafe_eq t hc, hiter cv hc, wf_attrsBad hattrs,
            wf_startBad hattrs]
        simp only [Bool.not_false, Bool.true_and, Bool.false_and,
          Bool.not_false, Bool.and_true]
        rw [List.all_eq_true]
        intro x hx
        exact itemSafeStep_of (hns cv hc x hx).2.2.2.2.1
    have hli : listItemSafe t = true := by
      cases hc : jget t "content" with
      | none => exact listItemSafe_none t hc
      | some cv =>
        rw [listItemSafe_eq t hc, hiter cv hc]
        simp only [Bool.not_false, Bool.true_and]
        rw [List.all_eq_true]
        intro x hx
        exact childSafeStep_of (wf_paragraphCrashes (hns cv hc x hx).2.2.2.2.2.2.2.2)
          (hns cv hc x hx).2.1
    have hcell : tableCellSafe t = true := by
      cases hc : jget t "content" with
      | none => exact tableCellSafe_none t hc
      | some cv =>
        rw [tableCellSafe_eq t hc, hiter cv hc]
        simp only [Bool.not_false, Bool.true_and]
        rw [List.all_eq_true]
        intro x hx
        exact childSafeStep_of (wf_paragraphCrashes (hns cv hc x hx).2.2.2.2.2.2.2.2)
          (hns cv hc x hx).2.1
    have hbq : blockquoteSafe t = true := by
      cases hc : jget t "content" with
      | none => exact blockquoteSafe_none t hc
      | some cv =>
        rw [blockquoteSafe_eq t hc, hiter cv hc]
        simp only [Bool.not_false, Bool.true_and]
        rw [List.all_eq_true]
        intro x hx
        exact nodeSafeStep_of (hns cv hc x hx).2.1
    have hren : renderSafe t = true := by
      cases hc : jget t "content" with
      | none => exact renderSafe_none t hc
      | some cv =>
        rw [renderSafe_eq t hc, hiter cv hc]
        simp only [Bool.not_false, Bool.true_and]
        rw [List.all_eq_true]
        intro x hx
        exact nodeSafeStep_of (hns cv hc x hx).2.1
    have htab : tableSafe t = true := by
      cases hc : jget t "content" with
      | none => exact tableSafe_none t hc
      | some cv =>
        rw [tableSafe_eq t hc, hiter cv hc]
        simp only [Bool.not_false, Bool.true_and]
        rw [List.all_eq_true]
        intro r hr
        cases r with
        | null => rfl
        | jbool b => rfl
        | jnum m => rfl
        | jstr s => rfl
        | jarr l => rfl
        | jobj fs =>
          by_cases hrow : getType (J.jobj fs) = lit "tableRow"
          · rw [rowSafeStep_eq (J.jobj fs) rfl hrow]
            have hwr : wfJ (J.jobj fs) = true :=
              (hns cv hc (J.jobj fs) hr).2.2.2.2.2.2.2.2
            obtain ⟨hrc, _, _, _⟩ := wfJ_spec hwr
            cases hrcv : jget (J.jobj fs) "content" with
            | none =>
              simp [jgetD, hrcv, iterList, iterCrashes]
            | some cvr =>
              obtain ⟨ys, hys, hwfys⟩ := hrc cvr hrcv
              subst hys
              simp only [jgetD, hrcv, Option.getD]
              simp only [iterCrashes, Bool.not_false, Bool.true_and]
              rw [List.all_eq_true]
              intro c hcm
              apply cellSafeStep_of
              have hwc : wfJ c = true := by
                apply hwfys
                simpa [iterList] using hcm
              have hszc : sizeOf c ≤ n := by
                have h1 := mem_content_sizeOf hrcv hcm
                have h2 := mem_content_sizeOf hc hr
                omega
              exact (ih c hszc hwc).2.2.2.2.2.2.2
          · exact rowSafeStep_not_row hrow
    have hnode : nodeSafe t = true := by
      have hpar := wf_paragraphCrashes hwf
      have hhead := wf_headingCrashes hwf
      have hcode := wf_codeBlockCrashes hwf
      have hab := wf_attrsBad hattrs
      simp only [nodeSafe]
      simp only [hpar, hhead, hcode, hab, hren, hbul, hord, hli, hbq, htab,
        Bool.not_false]
      cases hjc : jget t "content" with
      | none => simp [ite_self]
      | some cv => simp [ite_self]
    exact ⟨hren, hnode, hbul, hord, hli, hbq, htab, hcell⟩

/-- C7 counterexample: rendering is NOT total on every finite tree.  For
the content object `{"content": 5}` the Python renderer executes
`for item in content_obj['content']` with the integer `5` and raises
`TypeError` (`renderSafe` is false), so no string is returned — while a
total reading of the renderer would have to produce something (the
embedding returns the empty string).  Totality as claimed therefore
fails; it holds only for well-formed trees (see the amended theorem). -/
theorem c7_render_totality_counterexample :
    renderSafe (J.jobj [("content", J.jnum 5)]) = false
    ∧ convert_to_markdown (J.jobj [("content", J.jnum 5)]) = [] := by
  have hg : jget (J.jobj [("content", J.jnum 5)]) "content"
      = some (J.jnum 5) := rfl
  constructor
  · rw [renderSafe_eq _ hg]
    rfl
  · rw [convert_to_markdown_eq _ _ hg]
    rfl

/-- C7 (amended): on well-formed trees — every dict node's `content` a
list of well-formed values, `marks` a list of marks with dict `attrs`,
`attrs` a dict with integer `level`/`start`, `text` a string — the
renderer runs without raising at every entry point, terminates and
returns a string (the total function `convert_to_markdown` of this
embedding, which is deterministic and side-effect-free by construction),
and returns the empty string for nodes with no `content` to render.  On
arbitrary trees this fails: see the counterexample. -/
theorem c7_render_totality_amended (t : J) (h : wfJ t = true) :
    renderSafe t = true
    ∧ (jget t "content" = none → convert_to_markdown t = []) :=
  ⟨(wf_safe_bundle (sizeOf t) t (Nat.le_refl _) h).1,
   fun hc => convert_to_markdown_none t hc⟩

theorem c7_render_totality_amended_witness :
    wfJ (J.jobj [("type", J.jstr (lit "horizontalRule"))]) = true
    ∧ renderSafe (J.jobj [("type", J.jstr (lit "horizontalRule"))]) = true :=
  ⟨by rw [wfJ]; decide,
   (c7_render_totality_amended (J.jobj [("type", J.jstr (lit "horizontalRule"))])
     (by rw [wfJ]; decide)).1⟩
